import Mathlib

/-!
Shallow embedding of the rsmt2d extended-data-square repair layer
(files extendeddatacrossword.go and codecs.go), together with proofs
checking the natural-language specification against it.

Conventions of the embedding:
* a Go byte slice is a `List Nat`; a nil-able slice (`[][]byte` entry) is an
  `Option (List Nat)` with `none` standing for Go `nil`;
* fallible Go functions return `Except RepairError _`;
* the in-place mutation of the caller-supplied `data` slice is modelled by
  returning the caller-visible chunk list next to the result;
* the unbounded solver loop is modelled with explicit fuel; the termination
  development below shows `2 * width` sweeps of fuel suffice.

Helpers that the Go code calls but whose source is not part of the two
source files (the bit matrix, square import and accessors, the codec and
tree capabilities, the free Encode/Decode wrappers, flattenChunks) are
modelled from the specification text; each such definition carries a doc
comment saying so.
-/

namespace Rsmt2d

/-- Bytes of one chunk.  Go represents a chunk as a byte slice. -/
abbrev Chunk := List Nat

/-- One entry of a `[][]byte`: `none` models a Go nil slice (a missing chunk). -/
abbrev Cell := Option Chunk

/-- The two axis modes, `row = iota` and `column` in the source. -/
inductive Mode where
  | row
  | column
deriving DecidableEq, Repr

/-- Modelled from the spec: the Codec capability (section 6) is external to the
two source files; `encode` turns original chunks into parity chunks and
`decode` recovers the `originalDataWidth` original chunks from a partial
axis vector, failing when too few positions are known.  `maxChunks` is the
construction-time limit each codec exposes. -/
structure Codec where
  encode : List Cell → Except String (List Cell)
  decode : List Cell → Except String (List Cell)
  maxChunks : Nat

/-- The index metadata pushed with every tree leaf (`SquareIndex` in the code). -/
structure SquareIndex where
  cellIdx : Nat
  axisIdx : Nat
deriving DecidableEq, Repr

/-- Modelled from the spec: the Tree capability (section 6) is external; a
verification run creates one fresh tree, pushes all leaves in order and reads
the root, so the tree constructor is modelled as the function from the pushed
leaf sequence to the resulting root. -/
abbrev TreeFn := List (Cell × SquareIndex) → Chunk

/-- The error values the repair layer can produce.  `badRootInput` stands for
the plain `fmt.Errorf("bad root input: ...")` error (it records which axis the
message named); `codecError` is a codec error propagated verbatim;
`importError` is a failure of square construction. -/
inductive RepairError where
  | unrepairableDataSquare
  | byzantineRow (i : Nat)
  | byzantineColumn (i : Nat)
  | badRootInput (m : Mode) (i : Nat)
  | codecError (s : String)
  | importError (s : String)
deriving DecidableEq, Repr

/-- Decidable equality for `Except` results, so that concrete check outcomes
can be evaluated in witnesses. -/
instance exceptDecEq {ε α : Type} [DecidableEq ε] [DecidableEq α] :
    DecidableEq (Except ε α) := fun x y =>
  match x, y with
  | .error a, .error b =>
      if h : a = b then isTrue (by rw [h]) else
        isFalse (fun hc => by cases hc; exact h rfl)
  | .ok a, .ok b =>
      if h : a = b then isTrue (by rw [h]) else
        isFalse (fun hc => by cases hc; exact h rfl)
  | .error _, .ok _ => isFalse (fun hc => by cases hc)
  | .ok _, .error _ => isFalse (fun hc => by cases hc)

/-! ### Presence bit matrix

Modelled from the spec (section 4.1): a `width × width` boolean grid with
point get/set, flat-index set, and whole-axis / axis-range queries. -/

/-- Modelled from the spec: the presence bit matrix, a `width × width` grid of
booleans stored row-major. -/
structure bitMatrix where
  width : Nat
  bits : List (List Bool)
deriving DecidableEq, Repr

/-- Modelled from the spec: a fresh all-false bit matrix. -/
def newBitMatrix (w : Nat) : bitMatrix :=
  ⟨w, List.replicate w (List.replicate w false)⟩

/-- Modelled from the spec: point query. -/
def bitMatrix.Get (bm : bitMatrix) (r c : Nat) : Bool :=
  (bm.bits.getD r []).getD c false

/-- Modelled from the spec: point set (the only mutation; bits are only ever
turned on). -/
def bitMatrix.Set (bm : bitMatrix) (r c : Nat) : bitMatrix :=
  ⟨bm.width, bm.bits.set r ((bm.bits.getD r []).set c true)⟩

/-- Modelled from the spec: set by flat row-major index. -/
def bitMatrix.SetFlat (bm : bitMatrix) (i : Nat) : bitMatrix :=
  bm.Set (i / bm.width) (i % bm.width)

/-- Modelled from the spec: is every bit of row `i` set. -/
def bitMatrix.RowIsOne (bm : bitMatrix) (i : Nat) : Bool :=
  (bm.bits.getD i []).all id

/-- Modelled from the spec: is every bit of row `i` in the range `[lo, hi)` set. -/
def bitMatrix.RowRangeIsOne (bm : bitMatrix) (i lo hi : Nat) : Bool :=
  (((bm.bits.getD i []).drop lo).take (hi - lo)).all id

/-- Modelled from the spec: is every bit of column `c` set. -/
def bitMatrix.ColumnIsOne (bm : bitMatrix) (c : Nat) : Bool :=
  bm.bits.all (fun r => r.getD c false)

/-- Modelled from the spec: is every bit of column `c` in the row range
`[lo, hi)` set. -/
def bitMatrix.ColRangeIsOne (bm : bitMatrix) (c lo hi : Nat) : Bool :=
  (((bm.bits.drop lo).take (hi - lo)).all (fun r => r.getD c false))

/-- Well-formedness of a bit matrix: the stored grid really is
`width × width`. -/
def bitMatrix.WF (bm : bitMatrix) (w : Nat) : Prop :=
  bm.width = w ∧ bm.bits.length = w ∧ ∀ r ∈ bm.bits, r.length = w

/-! ### The extended data square -/

/-- The extended data square.  The Go struct keeps the chunks, the widths, the
codec selector and the tree constructor; the global codec registry is modelled
by storing the codec capability itself. -/
structure ExtendedDataSquare where
  width : Nat
  originalDataWidth : Nat
  squareRow : List (List Cell)
  codec : Codec
  createTreeFn : TreeFn

/-- Modelled from the spec: `Row i` returns the current row vector. -/
def ExtendedDataSquare.Row (eds : ExtendedDataSquare) (i : Nat) : List Cell :=
  eds.squareRow.getD i []

/-- Modelled from the spec: `Column i` returns the current column vector. -/
def ExtendedDataSquare.Column (eds : ExtendedDataSquare) (i : Nat) : List Cell :=
  eds.squareRow.map (fun r => r.getD i none)

/-- Modelled from the spec: `setCell` overwrites one cell of the square. -/
def ExtendedDataSquare.setCell (eds : ExtendedDataSquare) (r c : Nat) (v : Cell) :
    ExtendedDataSquare :=
  { eds with squareRow := eds.squareRow.set r ((eds.squareRow.getD r []).set c v) }

/-- Modelled from the spec: `rowSlice i x length` returns the cells
`[x, x+length)` of row `i`. -/
def ExtendedDataSquare.rowSlice (eds : ExtendedDataSquare) (i x length : Nat) : List Cell :=
  ((eds.Row i).drop x).take length

/-- Modelled from the spec: `columnSlice x j length` returns the cells
`[x, x+length)` of column `j`. -/
def ExtendedDataSquare.columnSlice (eds : ExtendedDataSquare) (x j length : Nat) : List Cell :=
  ((eds.Column j).drop x).take length

/-- The leaf sequence a verification run pushes for `shares` along axis
`axis`: each chunk tagged with its position along the axis and the axis
index, in position order. -/
def axisLeaves (shares : List Cell) (axis : Nat) : List (Cell × SquareIndex) :=
  ((List.range shares.length).zip shares).map (fun p => (p.2, ⟨p.1, axis⟩))

/-- Root of one axis vector: a fresh tree, every chunk pushed in order, then
the root. -/
def computeRoot (tf : TreeFn) (axis : Nat) (shares : List Cell) : Chunk :=
  tf (axisLeaves shares axis)

/-- Modelled from the spec: `RowRoot i` returns the root of row `i`
(computed exactly as the verifier computes it). -/
def ExtendedDataSquare.RowRoot (eds : ExtendedDataSquare) (i : Nat) : Chunk :=
  computeRoot eds.createTreeFn i (eds.Row i)

/-- Modelled from the spec: `ColRoot i` returns the root of column `i`. -/
def ExtendedDataSquare.ColRoot (eds : ExtendedDataSquare) (i : Nat) : Chunk :=
  computeRoot eds.createTreeFn i (eds.Column i)

/-- Modelled from the spec: the free `Encode` wrapper dispatches to the codec
capability. -/
def Encode (data : List Cell) (c : Codec) : Except String (List Cell) :=
  c.encode data

/-- Modelled from the spec: the free `Decode` wrapper dispatches to the codec
capability; unknown positions of the input vector are `none`. -/
def Decode (data : List Cell) (c : Codec) : Except String (List Cell) :=
  c.decode data

/-- Modelled from the spec: `flattenChunks` concatenates all chunk bytes (a
nil chunk contributes nothing). -/
def flattenChunks (chunks : List Cell) : List Nat :=
  chunks.foldr (fun c acc => c.getD [] ++ acc) []

/-- `noMissingData` from the source: true iff no chunk of the vector is nil. -/
def noMissingData (input : List Cell) : Bool :=
  input.all (fun d => d.isSome)

/-! ### Root verification -/

/-- `verifyAgainstRoots` from the source: build a fresh commitment over
`shares` and compare it to the expected root for axis `i` of the given mode;
mismatch is the byzantine error for that axis. -/
def verifyAgainstRoots (eds : ExtendedDataSquare) (rowRoots columnRoots : List Chunk)
    (mode : Mode) (i : Nat) (shares : List Cell) : Except RepairError Chunk :=
  let root := computeRoot eds.createTreeFn i shares
  match mode with
  | .row =>
      if root = rowRoots.getD i [] then .ok root else .error (.byzantineRow i)
  | .column =>
      if root = columnRoots.getD i [] then .ok root else .error (.byzantineColumn i)

/-! ### Pre-repair sanity check -/

/-- Run a check for every index of a list, stopping at the first error
(the shape of the Go `for` loops that may `return err`). -/
def runChecks (f : Nat → Except RepairError Unit) : List Nat → Except RepairError Unit
  | [] => .ok ()
  | i :: rest =>
      match f i with
      | .error e => .error e
      | .ok _ => runChecks f rest

/-- First guard of the sanity check at index `i`: a row with no missing data
whose bit-matrix row is complete must have the supplied root; otherwise the
plain bad-root-input error. -/
def checkRowRootInput (eds : ExtendedDataSquare) (rowRoots : List Chunk)
    (bm : bitMatrix) (i : Nat) : Except RepairError Unit :=
  if noMissingData (eds.Row i) = true ∧ bm.RowIsOne i = true ∧
      rowRoots.getD i [] ≠ eds.RowRoot i then
    .error (.badRootInput .row i)
  else .ok ()

/-- Second guard of the sanity check at index `i`, the column analogue. -/
def checkColRootInput (eds : ExtendedDataSquare) (columnRoots : List Chunk)
    (bm : bitMatrix) (i : Nat) : Except RepairError Unit :=
  if noMissingData (eds.Column i) = true ∧ bm.ColumnIsOne i = true ∧
      columnRoots.getD i [] ≠ eds.ColRoot i then
    .error (.badRootInput .column i)
  else .ok ()

/-- Third guard: if the bit matrix marks row `i` fully present, re-encode its
leading `originalDataWidth` chunks and byte-compare against the stored parity
chunks; mismatch is the byzantine-row error, an encode failure propagates. -/
def checkRowParity (eds : ExtendedDataSquare) (bm : bitMatrix) (i : Nat) :
    Except RepairError Unit :=
  if bm.RowIsOne i = true then
    match Encode (eds.rowSlice i 0 eds.originalDataWidth) eds.codec with
    | .error e => .error (.codecError e)
    | .ok parityShares =>
        if flattenChunks parityShares ≠
            flattenChunks (eds.rowSlice i eds.originalDataWidth eds.originalDataWidth) then
          .error (.byzantineRow i)
        else .ok ()
  else .ok ()

/-- Fourth guard: the column analogue of the parity re-encoding check. -/
def checkColParity (eds : ExtendedDataSquare) (bm : bitMatrix) (i : Nat) :
    Except RepairError Unit :=
  if bm.ColumnIsOne i = true then
    match Encode (eds.columnSlice 0 i eds.originalDataWidth) eds.codec with
    | .error e => .error (.codecError e)
    | .ok parityShares =>
        if flattenChunks parityShares ≠
            flattenChunks (eds.columnSlice eds.originalDataWidth i eds.originalDataWidth) then
          .error (.byzantineColumn i)
        else .ok ()
  else .ok ()

/-- The body of `prerepairSanityCheck` for one index `i`, the four guards in
source order. -/
def sanityCheckIndex (eds : ExtendedDataSquare) (rowRoots columnRoots : List Chunk)
    (bm : bitMatrix) (i : Nat) : Except RepairError Unit := do
  checkRowRootInput eds rowRoots bm i
  checkColRootInput eds columnRoots bm i
  checkRowParity eds bm i
  checkColParity eds bm i

/-- `prerepairSanityCheck` from the source: the four guards for every index
in `[0, width)`, stopping at the first error. -/
def prerepairSanityCheck (eds : ExtendedDataSquare) (rowRoots columnRoots : List Chunk)
    (bm : bitMatrix) : Except RepairError Unit :=
  runChecks (sanityCheckIndex eds rowRoots columnRoots bm) (List.range eds.width)

/-! ### The crossword solver -/

/-- `isIncomplete` of the solver: the axis is not fully present. -/
def axisIncomplete (bm : bitMatrix) (mode : Mode) (i : Nat) : Bool :=
  match mode with
  | .row => !bm.RowIsOne i
  | .column => !bm.ColumnIsOne i

/-- `isExtendedPartIncomplete` of the solver: the parity half
`[originalDataWidth, width)` of the axis is not fully present. -/
def extPartIncomplete (bm : bitMatrix) (mode : Mode) (i odw w : Nat) : Bool :=
  match mode with
  | .row => !bm.RowRangeIsOne i odw w
  | .column => !bm.ColRangeIsOne i odw w

/-- The share vector handed to the decoder: position `j` carries the square's
cell when the bit matrix knows it, `none` otherwise. -/
def buildShares (eds : ExtendedDataSquare) (bm : bitMatrix) (i : Nat) (mode : Mode) :
    List Cell :=
  (List.range eds.width).map (fun j =>
    match mode with
    | .row => if bm.Get i j then (eds.Row i).getD j none else none
    | .column => if bm.Get j i then (eds.Column i).getD j none else none)

/-- The cascade loop of the solver, exactly as coded: for every position `j`,
when the bit of the solved axis at `j` is unset while the orthogonal axis
through `j` is fully set, verify `rebuiltShares` against the orthogonal
axis's root and blame that orthogonal axis on mismatch. -/
def cascadeCheck (eds : ExtendedDataSquare) (bm : bitMatrix)
    (rowRoots columnRoots : List Chunk) (mode : Mode) (i : Nat)
    (rebuiltShares : List Cell) : Except RepairError Unit :=
  runChecks (fun j =>
    match mode with
    | .row =>
        if bm.Get i j = false ∧ bm.ColumnIsOne j = true then
          match verifyAgainstRoots eds rowRoots columnRoots .column j rebuiltShares with
          | .error _ => .error (.byzantineColumn j)
          | .ok _ => .ok ()
        else .ok ()
    | .column =>
        if bm.Get j i = false ∧ bm.RowIsOne j = true then
          match verifyAgainstRoots eds rowRoots columnRoots .row j rebuiltShares with
          | .error _ => .error (.byzantineRow j)
          | .ok _ => .ok ()
        else .ok ()) (List.range eds.width)

/-- Mark every bit along axis `i` of the given mode. -/
def setAxisBits (bm : bitMatrix) (w i : Nat) (mode : Mode) : bitMatrix :=
  (List.range w).foldl (fun b j =>
    match mode with
    | .row => b.Set i j
    | .column => b.Set j i) bm

/-- Write the rebuilt shares back into the square along axis `i`. -/
def writeShares (eds : ExtendedDataSquare) (i : Nat) (mode : Mode)
    (shares : List Cell) : ExtendedDataSquare :=
  (((List.range shares.length).zip shares).foldl (fun e p =>
    match mode with
    | .row => e.setCell i p.1 p.2
    | .column => e.setCell p.1 i p.2) eds)

/-- The mutable state of one solver sweep. -/
structure SweepState where
  eds : ExtendedDataSquare
  bm : bitMatrix
  solved : Bool
  progressMade : Bool

/-- One axis of one solver sweep, the body of the nested `for i` / `for mode`
loops of `solveCrossword`: skip complete axes; on decode failure mark the
sweep unsolved and keep going; on decode success rebuild the parity half
(re-encode if it was incomplete, otherwise append `shares[width:]`, which is
empty), verify against this axis's root, run the cascade loop, then set the
axis's bits and write the shares back. -/
def processAxis (rowRoots columnRoots : List Chunk) (st : SweepState)
    (i : Nat) (mode : Mode) : Except RepairError SweepState :=
  if axisIncomplete st.bm mode i = true then
    match Decode (buildShares st.eds st.bm i mode) st.eds.codec with
    | .error _ => .ok { st with solved := false }
    | .ok rebuiltShares =>
        match (if extPartIncomplete st.bm mode i st.eds.originalDataWidth
                  st.eds.width = true then
                match Encode rebuiltShares st.eds.codec with
                | .error e => Except.error (RepairError.codecError e)
                | .ok ext => Except.ok (rebuiltShares ++ ext)
              else
                Except.ok (rebuiltShares ++
                  (buildShares st.eds st.bm i mode).drop st.eds.width)) with
        | .error e => .error e
        | .ok full =>
            match verifyAgainstRoots st.eds rowRoots columnRoots mode i full with
            | .error e => .error e
            | .ok _ =>
                match cascadeCheck st.eds st.bm rowRoots columnRoots mode i full with
                | .error e => .error e
                | .ok _ =>
                    .ok { eds := writeShares st.eds i mode full,
                          bm := setAxisBits st.bm st.eds.width i mode,
                          solved := st.solved,
                          progressMade := true }
  else .ok st

/-- Process a list of axes in order, threading the sweep state. -/
def sweepAxes (rowRoots columnRoots : List Chunk) (st : SweepState) :
    List (Nat × Mode) → Except RepairError SweepState
  | [] => .ok st
  | a :: rest =>
      match processAxis rowRoots columnRoots st a.1 a.2 with
      | .error e => .error e
      | .ok st2 => sweepAxes rowRoots columnRoots st2 rest

/-- The scan order of one sweep: ascending index, row before column. -/
def axisScanList (w : Nat) : List (Nat × Mode) :=
  (List.range w).foldr (fun i acc => (i, Mode.row) :: (i, Mode.column) :: acc) []

/-- One full sweep of the solver, starting from `solved = true`,
`progressMade = false`. -/
def sweep (rowRoots columnRoots : List Chunk) (eds : ExtendedDataSquare)
    (bm : bitMatrix) : Except RepairError SweepState :=
  sweepAxes rowRoots columnRoots ⟨eds, bm, true, false⟩ (axisScanList eds.width)

/-- The outer `for {}` loop of `solveCrossword`, with explicit fuel (one unit
per sweep): after a sweep, stop successfully when solved, fail with the
unrepairable error when no progress was made, otherwise sweep again.
`none` means the fuel ran out before the loop decided. -/
def solveLoop (rowRoots columnRoots : List Chunk) :
    Nat → ExtendedDataSquare → bitMatrix →
    Option (Except RepairError (ExtendedDataSquare × bitMatrix))
  | 0, _, _ => none
  | Nat.succ fuel, eds, bm =>
      match sweep rowRoots columnRoots eds bm with
      | .error e => some (.error e)
      | .ok st =>
          if st.solved = true then some (.ok (st.eds, st.bm))
          else if st.progressMade = false then some (.error .unrepairableDataSquare)
          else solveLoop rowRoots columnRoots fuel st.eds st.bm

/-- `solveCrossword` from the source.  The Go loop is unbounded; the
termination theorem below shows `2 * width` sweeps always decide the loop
(for a well-formed bit matrix), so that fuel is used here.  The default of
`getD` is unreachable under that theorem. -/
def solveCrossword (eds : ExtendedDataSquare) (bm : bitMatrix)
    (rowRoots columnRoots : List Chunk) :
    Except RepairError (ExtendedDataSquare × bitMatrix) :=
  (solveLoop rowRoots columnRoots (2 * eds.width) eds bm).getD
    (.error .unrepairableDataSquare)

/-! ### The repair entry point -/

/-- Ceiling square root (the Go code computes `ceil(sqrt(len(data)))` with
floats): the least `w` with `n ≤ w * w`, by bounded search so that it
evaluates by kernel reduction. -/
def ceilSqrt (n : Nat) : Nat :=
  ((List.range (n + 1)).find? (fun w => n ≤ w * w)).getD n

/-- The bit-matrix scan of the entry point: flat-set every position holding a
non-nil chunk. -/
def scanBitMask (data : List Cell) (w : Nat) : bitMatrix :=
  (List.range data.length).foldl (fun bm i =>
    if (data.getD i none).isSome then bm.SetFlat i else bm) (newBitMatrix w)

/-- The chunk-size scan of the entry point: the length of the first non-nil
chunk of nonzero length (a zero-length chunk leaves `chunkSize` at 0, so the
scan keeps looking). -/
def scanChunkSize : List Cell → Nat
  | [] => 0
  | none :: rest => scanChunkSize rest
  | some c :: rest => if c.length = 0 then scanChunkSize rest else c.length

/-- The gap-filling step of the entry point: every nil entry becomes a fresh
zero-filled chunk of `chunkSize` bytes; present entries are untouched. -/
def fillData (data : List Cell) (chunkSize : Nat) : List Cell :=
  data.map (fun c =>
    match c with
    | none => some (List.replicate chunkSize 0)
    | some x => some x)

/-- Cut a flat row-major chunk list into `w` rows of `w` cells. -/
def chunksToRows (w : Nat) (data : List Cell) : List (List Cell) :=
  (List.range w).map (fun r => ((data.drop (r * w)).take w))

/-- Modelled from the spec: `ImportExtendedDataSquare` is not among the two
source files.  Per the spec it builds the square structure from the flat
chunk list bound to the codec and tree constructor; the square is
`width × width` with `width = 2 * originalDataWidth`, all chunks must have
one length, and each codec caps the number of chunks. -/
def ImportExtendedDataSquare (data : List Cell) (codec : Codec) (tf : TreeFn) :
    Except RepairError ExtendedDataSquare :=
  let w := ceilSqrt data.length
  if w * w = data.length ∧ w % 2 = 0 ∧ data.length ≤ codec.maxChunks ∧
      (∀ c ∈ data, ∀ x ∈ data, ∀ a, c = some a → ∀ b, x = some b → a.length = b.length) then
    .ok { width := w, originalDataWidth := w / 2,
          squareRow := chunksToRows w data, codec := codec, createTreeFn := tf }
  else .error (.importError "import failed")

/-- `RepairExtendedDataSquare` from the source.  The second component of the
result is the caller-visible content of the `data` slice after the call (the
Go code mutates it in place when filling the gaps). -/
def RepairExtendedDataSquare (rowRoots columnRoots : List Chunk) (data : List Cell)
    (codec : Codec) (tf : TreeFn) :
    Except RepairError ExtendedDataSquare × List Cell :=
  let width := ceilSqrt data.length
  let bitMat := scanBitMask data width
  let chunkSize := scanChunkSize data
  if chunkSize = 0 then
    (.error .unrepairableDataSquare, data)
  else
    let filled := fillData data chunkSize
    match ImportExtendedDataSquare filled codec tf with
    | .error e => (.error e, filled)
    | .ok eds =>
        match prerepairSanityCheck eds rowRoots columnRoots bitMat with
        | .error e => (.error e, filled)
        | .ok _ =>
            match solveCrossword eds bitMat rowRoots columnRoots with
            | .error e => (.error e, filled)
            | .ok (eds2, _) => (.ok eds2, filled)

/-! ### Mode-generic views of the sanity-check data

These package the row/column duplication of the source into one
mode-indexed definition, for stating axis-generic theorems. -/

/-- The chunk vector of an axis. -/
def axisVector (eds : ExtendedDataSquare) (mode : Mode) (i : Nat) : List Cell :=
  match mode with
  | .row => eds.Row i
  | .column => eds.Column i

/-- The caller-supplied root for an axis. -/
def axisSuppliedRoot (rowRoots columnRoots : List Chunk) (mode : Mode) (i : Nat) : Chunk :=
  match mode with
  | .row => rowRoots.getD i []
  | .column => columnRoots.getD i []

/-- The square's freshly computed root for an axis. -/
def axisComputedRoot (eds : ExtendedDataSquare) (mode : Mode) (i : Nat) : Chunk :=
  match mode with
  | .row => eds.RowRoot i
  | .column => eds.ColRoot i

/-- Whether the bit matrix marks an entire axis present. -/
def axisIsOne (bm : bitMatrix) (mode : Mode) (i : Nat) : Bool :=
  match mode with
  | .row => bm.RowIsOne i
  | .column => bm.ColumnIsOne i

/-- The byzantine error naming an axis. -/
def byzantineErr (mode : Mode) (i : Nat) : RepairError :=
  match mode with
  | .row => .byzantineRow i
  | .column => .byzantineColumn i

/-- The leading `originalDataWidth` chunks of an axis (the encode input of the
sanity check). -/
def axisDataSlice (eds : ExtendedDataSquare) (mode : Mode) (i : Nat) : List Cell :=
  match mode with
  | .row => eds.rowSlice i 0 eds.originalDataWidth
  | .column => eds.columnSlice 0 i eds.originalDataWidth

/-- The stored parity chunks of an axis (what the sanity check compares the
re-encoding against). -/
def axisParitySlice (eds : ExtendedDataSquare) (mode : Mode) (i : Nat) : List Cell :=
  match mode with
  | .row => eds.rowSlice i eds.originalDataWidth eds.originalDataWidth
  | .column => eds.columnSlice eds.originalDataWidth i eds.originalDataWidth

/-- The axis parity-rebuild check of the sanity pass, mode-generic. -/
def axisParityCheck (eds : ExtendedDataSquare) (bm : bitMatrix) (mode : Mode) (i : Nat) :
    Except RepairError Unit :=
  match mode with
  | .row => checkRowParity eds bm i
  | .column => checkColParity eds bm i

/-- Counting measure for the termination argument: how many of the `2 × width`
axes the bit matrix marks fully present. -/
def completeCount (w : Nat) (bm : bitMatrix) : Nat :=
  (axisScanList w).countP (fun a => !axisIncomplete bm a.2 a.1)

/-- Pointwise order on bit matrices: the solver only ever turns bits on. -/
def bitLE (a b : bitMatrix) : Prop :=
  ∀ r c, a.Get r c = true → b.Get r c = true

/-! ### Concrete capabilities used by witnesses

A 2 × 2 square (`originalDataWidth = 1`) with the repetition code (one parity
chunk equal to the one data chunk) and an injective concatenating commitment. -/

/-- A concrete commitment: concatenate every leaf with its indices and a
separator, which makes the root injective in the pushed leaf sequence. -/
def flatTree : TreeFn :=
  fun leaves => leaves.foldr
    (fun l acc => l.2.cellIdx :: l.2.axisIdx :: (l.1.getD [55]) ++ 77 :: acc) []

/-- A concrete codec for `originalDataWidth = 1` squares: the repetition code.
Encoding copies the single data chunk; decoding returns the first known
share and fails when none is known. -/
def repCodec : Codec where
  encode := fun data => .ok data
  decode := fun shares =>
    match shares.filterMap id with
    | [] => .error "insufficient shares"
    | c :: _ => .ok [some c]
  maxChunks := 1024

/-- A codec whose decoder always answers but whose encoder always fails, to
exercise the fatal encode-failure path of the solver. -/
def encFailCodec : Codec where
  encode := fun _ => .error "encode capability fault"
  decode := fun _ => .ok [some [1]]
  maxChunks := 1024

/-- Build a 2 × 2 square over the repetition codec and the concatenating
commitment. -/
def mkSquare2 (data : List Cell) : ExtendedDataSquare :=
  { width := 2, originalDataWidth := 1, squareRow := chunksToRows 2 data,
    codec := repCodec, createTreeFn := flatTree }

/-- The all-present 2 × 2 bit matrix. -/
def fullMask2 : bitMatrix := ⟨2, [[true, true], [true, true]]⟩

/-- Roots of the consistent all-`[7]` 2 × 2 square (rows and columns agree). -/
def roots7 : List Chunk :=
  [computeRoot flatTree 0 [some [7], some [7]],
   computeRoot flatTree 1 [some [7], some [7]]]

/-- Honest repairable input: the all-`[7]` square with only cell (0,0) missing
(row 0 keeps its parity chunk, so the solver takes the copy-parity branch). -/
def c1data : List Cell := [none, some [7], some [7], some [7]]

/-- Honest data for the cascade scenario: the all-`[7]` square with cell (0,1)
missing, so column 1 is completed as a side effect of solving row 0. -/
def c2data : List Cell := [some [7], none, some [7], some [7]]

/-- Column roots for the cascade scenario: column 0 honest, column 1
fabricated garbage that matches no reconstruction. -/
def c2colRoots : List Chunk := [computeRoot flatTree 0 [some [7], some [7]], [42]]

/-- The all-`[7]` square with its (0,0) data chunk mutated to `[9]`:
fully present, but row 0 (and column 0) no longer match the honest roots. -/
def c3data : List Cell := [some [9], some [7], some [7], some [7]]

/-- A fully present square in which the parity chunk of every row and column
differs from the re-encoding of its data chunk. -/
def c4data : List Cell := [some [1], some [2], some [3], some [4]]

/-- The actual row roots of `c4data` (so the root-input checks pass and the
parity checks decide). -/
def c4rowRoots : List Chunk :=
  [computeRoot flatTree 0 [some [1], some [2]],
   computeRoot flatTree 1 [some [3], some [4]]]

/-- The actual column roots of `c4data`. -/
def c4colRoots : List Chunk :=
  [computeRoot flatTree 0 [some [1], some [3]],
   computeRoot flatTree 1 [some [2], some [4]]]

/-- Fully present square: row 0 parity-inconsistent, rows otherwise honest. -/
def c5data : List Cell := [some [1], some [2], some [7], some [7]]

/-- Supplied row roots for `c5data`: row 0 honest (so only its parity is bad),
row 1 garbage (a bad root input). -/
def c5rowRoots : List Chunk := [computeRoot flatTree 0 [some [1], some [2]], [42]]

/-- The actual column roots of `c5data`. -/
def c5colRoots : List Chunk :=
  [computeRoot flatTree 0 [some [1], some [7]],
   computeRoot flatTree 1 [some [2], some [7]]]

/-- The fully present, internally consistent all-`[5]` square. -/
def c9data : List Cell := [some [5], some [5], some [5], some [5]]

/-- Its (row and column) roots. -/
def c9roots : List Chunk :=
  [computeRoot flatTree 0 [some [5], some [5]],
   computeRoot flatTree 1 [some [5], some [5]]]

/-- The all-`[7]` square data with supplied row roots where row 0's root is
garbage: a plain bad-root input. -/
def c5wRowRoots : List Chunk := [[42], computeRoot flatTree 1 [some [7], some [7]]]

/-- Fully present all-`[7]` data. -/
def data7 : List Cell := [some [7], some [7], some [7], some [7]]

/-! ## Theorems -/

/-- If every entry of a chunk list is nil, the chunk-size scan stays at 0. -/
theorem scanChunkSize_eq_zero_of_all_none (data : List Cell)
    (h : ∀ c ∈ data, c = none) : scanChunkSize data = 0 := by
  induction data with
  | nil => rfl
  | cons c rest ih =>
      cases c with
      | none =>
          simpa [scanChunkSize] using ih (fun x hx => h x (List.mem_cons_of_mem _ hx))
      | some ch => exact absurd (h (some ch) (List.mem_cons_self _ _)) (by simp)

/-- C6: if the caller-supplied chunk list contains no present chunk at all,
`RepairExtendedDataSquare` returns the unrepairable-square error at once,
for every choice of roots, codec and tree constructor (so before the square
is imported or either check or the solver runs), and leaves the caller's
data untouched. -/
theorem claim6_no_chunk_present_unrepairable (rowRoots columnRoots : List Chunk)
    (data : List Cell) (codec : Codec) (tf : TreeFn)
    (hall : ∀ c ∈ data, c = none) :
    RepairExtendedDataSquare rowRoots columnRoots data codec tf =
      (.error .unrepairableDataSquare, data) := by
  simp [RepairExtendedDataSquare, scanChunkSize_eq_zero_of_all_none data hall]

/-- Witness for C6 at the concrete all-missing 2 × 2 input. -/
theorem claim6_witness :
    RepairExtendedDataSquare [] [] [none, none, none, none] repCodec flatTree =
      (.error .unrepairableDataSquare, [none, none, none, none]) :=
  claim6_no_chunk_present_unrepairable [] [] _ repCodec flatTree (by decide)

/-- C1 (failing input): on the honest, repairable input `c1data` — the
consistent all-`[7]` square with only cell (0,0) missing, so that row 0's
parity half is fully present — the repair fails with a spurious byzantine
error for row 0.  The second conjunct shows the vector the claim describes
(the decoded chunk followed by the known parity chunk, length = width) would
have verified against the supplied root: the code instead appends
`shares[width:]`, which is empty, and submits a vector of length
`originalDataWidth` to root verification. -/
theorem claim1_copy_parity_branch_loses_parity :
    (RepairExtendedDataSquare roots7 roots7 c1data repCodec flatTree).1 =
      .error (.byzantineRow 0)
    ∧ verifyAgainstRoots (mkSquare2 data7) roots7 roots7 .row 0 [some [7], some [7]] =
        .ok (computeRoot flatTree 0 [some [7], some [7]]) :=
  ⟨rfl, rfl⟩

/-- C2 (failing input): with the honest data `c2data` (cell (0,1) missing)
and a fabricated, unmatchable root supplied for column 1, the repair
succeeds: solving row 0 completes column 1 as a side effect, yet the
newly completed orthogonal column is never verified against its root — the
cascade guard requires the orthogonal axis to be fully present at a position
the bit matrix marks missing, which is contradictory — so the returned
square's column 1 contradicts the caller-supplied root without any byzantine
error being raised. -/
theorem claim2_cascade_check_never_verifies :
    ∃ eds, (RepairExtendedDataSquare roots7 c2colRoots c2data repCodec flatTree).1 = .ok eds
      ∧ eds.squareRow = [[some [7], some [7]], [some [7], some [7]]]
      ∧ c2colRoots.getD 1 [] ≠ eds.ColRoot 1 :=
  ⟨_, rfl, rfl, by decide⟩

/-- C3 (counterexample): the fully present square `c3data` (the consistent
all-`[7]` square with its (0,0) data chunk mutated to `[9]`) with the honest
roots supplied: row 0's root no longer matches, and the repair fails with the
plain bad-root-input error, which is not a byzantine-row or byzantine-column
error for any index. -/
theorem claim3_counterexample :
    (∀ c ∈ c3data, c.isSome = true)
    ∧ (scanBitMask c3data 2).RowIsOne 0 = true
    ∧ roots7.getD 0 [] ≠ (mkSquare2 c3data).RowRoot 0
    ∧ (RepairExtendedDataSquare roots7 roots7 c3data repCodec flatTree).1 =
        .error (.badRootInput .row 0)
    ∧ (∀ j, RepairError.badRootInput .row 0 ≠ .byzantineRow j
        ∧ RepairError.badRootInput .row 0 ≠ .byzantineColumn j) :=
  ⟨by decide, by decide, by decide, rfl, fun _ => ⟨nofun, nofun⟩⟩

/-- C4 (counterexample): in `c4data` both rows are marked fully present and
both fail the parity re-encoding byte-comparison, yet the sanity check
returns the byzantine error for row 0 only — so for axis `i = 1`, which
satisfies the claim's hypotheses, the result is not `ErrByzantineRow 1`. -/
theorem claim4_counterexample :
    fullMask2.RowIsOne 1 = true
    ∧ (∃ p, Encode (axisDataSlice (mkSquare2 c4data) .row 1) (mkSquare2 c4data).codec = .ok p
        ∧ flattenChunks p ≠ flattenChunks (axisParitySlice (mkSquare2 c4data) .row 1))
    ∧ prerepairSanityCheck (mkSquare2 c4data) c4rowRoots c4colRoots fullMask2 =
        .error (.byzantineRow 0)
    ∧ RepairError.byzantineRow 0 ≠ .byzantineRow 1 :=
  ⟨by decide, ⟨[some [3]], rfl, by decide⟩, rfl, by decide⟩

/-- C5 (counterexample): in `c5data` row 1 has no missing data, is marked
fully present, and its freshly computed root differs from the supplied root
`[42]`; the claim then demands a plain (non-byzantine) failure, but the
sanity check fails with the byzantine error for row 0 (whose parity is
inconsistent and is scanned first). -/
theorem claim5_counterexample :
    noMissingData ((mkSquare2 c5data).Row 1) = true
    ∧ fullMask2.RowIsOne 1 = true
    ∧ c5rowRoots.getD 1 [] ≠ (mkSquare2 c5data).RowRoot 1
    ∧ prerepairSanityCheck (mkSquare2 c5data) c5rowRoots c5colRoots fullMask2 =
        .error (.byzantineRow 0)
    ∧ (∀ m i, RepairError.byzantineRow 0 ≠ .badRootInput m i) :=
  ⟨by decide, by decide, by decide, rfl, fun _ _ => nofun⟩

/-- Pointwise description of the gap-filling step. -/
theorem fillData_getD (data : List Cell) (cs i : Nat) (hi : i < data.length) :
    (fillData data cs).getD i none =
      match data.getD i none with
      | none => some (List.replicate cs 0)
      | some ch => some ch := by
  induction data generalizing i with
  | nil => simp at hi
  | cons c rest ih =>
      cases i with
      | zero => cases c <;> simp [fillData]
      | succ n =>
          have hn : n < rest.length := Nat.lt_of_succ_lt_succ (by simpa using hi)
          simpa [fillData, List.getD_cons_succ] using ih n hn

/-- Once some chunk is present with nonzero length, the repair call's
caller-visible data is the gap-filled list, whatever the call's outcome. -/
theorem repair_snd_eq_fill (rowRoots columnRoots : List Chunk) (data : List Cell)
    (codec : Codec) (tf : TreeFn) (hcs : scanChunkSize data ≠ 0) :
    (RepairExtendedDataSquare rowRoots columnRoots data codec tf).2 =
      fillData data (scanChunkSize data) := by
  simp only [RepairExtendedDataSquare, if_neg hcs]
  cases h1 : ImportExtendedDataSquare (fillData data (scanChunkSize data)) codec tf with
  | error e => simp
  | ok eds =>
      cases h2 : prerepairSanityCheck eds rowRoots columnRoots
          (scanBitMask data (ceilSqrt data.length)) with
      | error e => simp [h2]
      | ok u =>
          cases h3 : solveCrossword eds (scanBitMask data (ceilSqrt data.length))
              rowRoots columnRoots with
          | error e => simp [h2, h3]
          | ok p => simp [h2, h3]

/-- The structure of the chunk-size scan: the scanned size is the length of
the first non-nil chunk of nonzero length. -/
theorem scanChunkSize_first_nonzero (data : List Cell) (hcs : scanChunkSize data ≠ 0) :
    ∃ pre c post, data = pre ++ some c :: post ∧ c.length = scanChunkSize data
      ∧ 0 < c.length ∧ ∀ x ∈ pre, ∀ ch, x = some ch → ch.length = 0 := by
  induction data with
  | nil => simp [scanChunkSize] at hcs
  | cons c0 rest ih =>
      cases c0 with
      | none =>
          have h2 : scanChunkSize rest ≠ 0 := by simpa [scanChunkSize] using hcs
          obtain ⟨pre, c, post, he, h1, hpos, h3⟩ := ih h2
          refine ⟨none :: pre, c, post, by simp [he], by simpa [scanChunkSize] using h1,
            hpos, ?_⟩
          intro x hx ch hch
          rcases List.mem_cons.mp hx with h | h
          · rw [h] at hch; exact absurd hch (by simp)
          · exact h3 x h ch hch
      | some ch0 =>
          by_cases h0 : ch0.length = 0
          · have h2 : scanChunkSize rest ≠ 0 := by simpa [scanChunkSize, h0] using hcs
            obtain ⟨pre, c, post, he, h1, hpos, h3⟩ := ih h2
            refine ⟨some ch0 :: pre, c, post, by simp [he],
              by simpa [scanChunkSize, h0] using h1, hpos, ?_⟩
            intro x hx ch hch
            rcases List.mem_cons.mp hx with h | h
            · rw [h] at hch
              cases hch
              exact h0
            · exact h3 x h ch hch
          · exact ⟨[], ch0, rest, rfl, by simp [scanChunkSize, h0],
              Nat.pos_of_ne_zero h0, by simp⟩

/-- C10: whenever some non-nil chunk of nonzero length exists,
`RepairExtendedDataSquare` rewrites the caller-supplied data in place before
importing: the caller afterwards sees the gap-filled list, in which every nil
entry has become a zero-filled chunk of `chunkSize` bytes and every present
entry is untouched, where `chunkSize` is the length of the first non-nil
chunk of nonzero length; and this holds whatever result (success or error)
the call returns, since the second component is computed before and
independently of the outcome. -/
theorem claim10_fill_in_place (rowRoots columnRoots : List Chunk) (data : List Cell)
    (codec : Codec) (tf : TreeFn) (hcs : scanChunkSize data ≠ 0) :
    (RepairExtendedDataSquare rowRoots columnRoots data codec tf).2 =
      fillData data (scanChunkSize data)
    ∧ (∀ i, i < data.length →
        (RepairExtendedDataSquare rowRoots columnRoots data codec tf).2.getD i none =
          match data.getD i none with
          | none => some (List.replicate (scanChunkSize data) 0)
          | some ch => some ch)
    ∧ (∃ pre c post, data = pre ++ some c :: post ∧ c.length = scanChunkSize data
        ∧ 0 < c.length ∧ ∀ x ∈ pre, ∀ ch, x = some ch → ch.length = 0) := by
  refine ⟨repair_snd_eq_fill _ _ _ _ _ hcs, ?_, scanChunkSize_first_nonzero data hcs⟩
  intro i hi
  rw [repair_snd_eq_fill _ _ _ _ _ hcs]
  exact fillData_getD data _ i hi

/-- Witness for C10 at a concrete sparse input. -/
theorem claim10_witness :
    (RepairExtendedDataSquare [] [] [none, some [7]] repCodec flatTree).2 =
      fillData [none, some [7]] (scanChunkSize [none, some [7]])
    ∧ (∀ i, i < ([none, some [7]] : List Cell).length →
        (RepairExtendedDataSquare [] [] [none, some [7]] repCodec flatTree).2.getD i none =
          match ([none, some [7]] : List Cell).getD i none with
          | none => some (List.replicate (scanChunkSize [none, some [7]]) 0)
          | some ch => some ch)
    ∧ (∃ pre c post, ([none, some [7]] : List Cell) = pre ++ some c :: post
        ∧ c.length = scanChunkSize [none, some [7]]
        ∧ 0 < c.length ∧ ∀ x ∈ pre, ∀ ch, x = some ch → ch.length = 0) :=
  claim10_fill_in_place [] [] [none, some [7]] repCodec flatTree (by decide)

/-- A check loop over indices that all pass returns ok. -/
theorem runChecks_ok_of_all (f : Nat → Except RepairError Unit) (l : List Nat)
    (h : ∀ k ∈ l, f k = .ok ()) : runChecks f l = .ok () := by
  induction l with
  | nil => rfl
  | cons a rest ih =>
      have ha := h a (List.mem_cons_self _ _)
      simp only [runChecks, ha]
      exact ih (fun k hk => h k (List.mem_cons_of_mem _ hk))

/-- A check loop stops at the first failing index. -/
theorem runChecks_range_error (f : Nat → Except RepairError Unit) (n i : Nat)
    (e : RepairError) (hi : i < n) (hok : ∀ k, k < i → f k = .ok ())
    (herr : f i = .error e) : runChecks f (List.range n) = .error e := by
  obtain ⟨m, hm⟩ : ∃ m, n = i + (m + 1) :=
    ⟨n - i - 1, by omega⟩
  subst hm
  rw [List.range_add]
  have hpre : runChecks f (List.range i) = .ok () :=
    runChecks_ok_of_all f _ (fun k hk => hok k (List.mem_range.mp hk))
  have happ : ∀ (l1 l2 : List Nat), runChecks f l1 = .ok () →
      runChecks f (l1 ++ l2) = runChecks f l2 := by
    intro l1 l2 h1
    induction l1 with
    | nil => rfl
    | cons a rest ih =>
        simp only [runChecks] at h1 ⊢
        cases hfa : f a with
        | error q => rw [hfa] at h1; simp at h1
        | ok u => rw [hfa] at h1; exact ih h1
  rw [happ _ _ hpre]
  rw [List.range_succ_eq_map]
  simp only [List.map_cons, Nat.add_zero, runChecks, herr]

/-- If the first failing guard of the sanity pass is the root-input
comparison of axis `(mode, i)`, the sanity pass returns the plain bad-root
error for that axis. -/
theorem sanity_first_root_mismatch (eds : ExtendedDataSquare)
    (rowRoots columnRoots : List Chunk) (bm : bitMatrix) (mode : Mode) (i : Nat)
    (hi : i < eds.width)
    (hprior : ∀ k, k < i → sanityCheckIndex eds rowRoots columnRoots bm k = .ok ())
    (hnm : noMissingData (axisVector eds mode i) = true)
    (hfull : axisIsOne bm mode i = true)
    (hroot : axisSuppliedRoot rowRoots columnRoots mode i ≠ axisComputedRoot eds mode i)
    (hmode : mode = .column → checkRowRootInput eds rowRoots bm i = .ok ()) :
    prerepairSanityCheck eds rowRoots columnRoots bm = .error (.badRootInput mode i) := by
  have hidx : sanityCheckIndex eds rowRoots columnRoots bm i =
      .error (.badRootInput mode i) := by
    cases mode with
    | row =>
        have h1 : checkRowRootInput eds rowRoots bm i = .error (.badRootInput .row i) := by
          simp only [axisVector] at hnm
          simp only [axisIsOne] at hfull
          simp only [axisSuppliedRoot, axisComputedRoot] at hroot
          simp only [checkRowRootInput, if_pos (And.intro hnm (And.intro hfull hroot))]
        unfold sanityCheckIndex
        rw [h1]
        rfl
    | column =>
        have h0 := hmode rfl
        have h1 : checkColRootInput eds columnRoots bm i =
            .error (.badRootInput .column i) := by
          simp only [axisVector] at hnm
          simp only [axisIsOne] at hfull
          simp only [axisSuppliedRoot, axisComputedRoot] at hroot
          simp only [checkColRootInput, if_pos (And.intro hnm (And.intro hfull hroot))]
        unfold sanityCheckIndex
        rw [h0, h1]
        rfl
  exact runChecks_range_error _ eds.width i _ hi hprior hidx

/-- If the first failing guard of the sanity pass is the parity re-encoding
comparison of axis `(mode, i)`, the sanity pass returns the byzantine error
for that axis. -/
theorem sanity_first_parity_mismatch (eds : ExtendedDataSquare)
    (rowRoots columnRoots : List Chunk) (bm : bitMatrix) (mode : Mode) (i : Nat)
    (p : List Cell)
    (hi : i < eds.width)
    (hprior : ∀ k, k < i → sanityCheckIndex eds rowRoots columnRoots bm k = .ok ())
    (hfull : axisIsOne bm mode i = true)
    (henc : Encode (axisDataSlice eds mode i) eds.codec = .ok p)
    (hmis : flattenChunks p ≠ flattenChunks (axisParitySlice eds mode i))
    (hroots1 : checkRowRootInput eds rowRoots bm i = .ok ())
    (hroots2 : checkColRootInput eds columnRoots bm i = .ok ())
    (hmode : mode = .column → checkRowParity eds bm i = .ok ()) :
    prerepairSanityCheck eds rowRoots columnRoots bm = .error (byzantineErr mode i) := by
  have hidx : sanityCheckIndex eds rowRoots columnRoots bm i =
      .error (byzantineErr mode i) := by
    cases mode with
    | row =>
        have h1 : checkRowParity eds bm i = .error (.byzantineRow i) := by
          simp only [axisIsOne] at hfull
          simp only [axisDataSlice] at henc
          simp only [axisParitySlice] at hmis
          simp only [checkRowParity, if_pos hfull, henc, if_pos hmis]
        unfold sanityCheckIndex
        rw [hroots1, hroots2, h1]
        rfl
    | column =>
        have h0 := hmode rfl
        have h1 : checkColParity eds bm i = .error (.byzantineColumn i) := by
          simp only [axisIsOne] at hfull
          simp only [axisDataSlice] at henc
          simp only [axisParitySlice] at hmis
          simp only [checkColParity, if_pos hfull, henc, if_pos hmis]
        unfold sanityCheckIndex
        rw [hroots1, hroots2, h0, h1]
        rfl
  exact runChecks_range_error _ eds.width i _ hi hprior hidx

/-- A unit-valued check result is either ok or some error. -/
theorem exceptUnit_cases (x : Except RepairError Unit) :
    x = .ok () ∨ ∃ e, x = .error e := by
  cases x with
  | error e => exact Or.inr ⟨e, rfl⟩
  | ok u => cases u; exact Or.inl rfl

/-- If a check loop returns ok, every index it visited passed. -/
theorem runChecks_ok_all (f : Nat → Except RepairError Unit) :
    ∀ (l : List Nat), runChecks f l = .ok () → ∀ k ∈ l, f k = .ok () := by
  intro l
  induction l with
  | nil => intro _ k hk; simp at hk
  | cons a rest ih =>
      intro h k hk
      unfold runChecks at h
      cases hfa : f a with
      | error e => rw [hfa] at h; simp at h
      | ok u =>
          rw [hfa] at h
          rcases List.mem_cons.mp hk with rfl | hk2
          · cases u; exact hfa
          · exact ih h k hk2

/-- The index check propagates a failure of its first guard. -/
theorem sanityCheckIndex_err1 (eds : ExtendedDataSquare)
    (rowRoots columnRoots : List Chunk) (bm : bitMatrix) (i : Nat) (e : RepairError)
    (h1 : checkRowRootInput eds rowRoots bm i = .error e) :
    sanityCheckIndex eds rowRoots columnRoots bm i = .error e := by
  unfold sanityCheckIndex
  rw [h1]
  rfl

/-- The index check propagates a failure of its second guard. -/
theorem sanityCheckIndex_err2 (eds : ExtendedDataSquare)
    (rowRoots columnRoots : List Chunk) (bm : bitMatrix) (i : Nat) (e : RepairError)
    (h1 : checkRowRootInput eds rowRoots bm i = .ok ())
    (h2 : checkColRootInput eds columnRoots bm i = .error e) :
    sanityCheckIndex eds rowRoots columnRoots bm i = .error e := by
  unfold sanityCheckIndex
  rw [h1, h2]
  rfl

/-- The index check propagates a failure of its third guard. -/
theorem sanityCheckIndex_err3 (eds : ExtendedDataSquare)
    (rowRoots columnRoots : List Chunk) (bm : bitMatrix) (i : Nat) (e : RepairError)
    (h1 : checkRowRootInput eds rowRoots bm i = .ok ())
    (h2 : checkColRootInput eds columnRoots bm i = .ok ())
    (h3 : checkRowParity eds bm i = .error e) :
    sanityCheckIndex eds rowRoots columnRoots bm i = .error e := by
  unfold sanityCheckIndex
  rw [h1, h2, h3]
  rfl

/-- The index check propagates a failure of its fourth guard. -/
theorem sanityCheckIndex_err4 (eds : ExtendedDataSquare)
    (rowRoots columnRoots : List Chunk) (bm : bitMatrix) (i : Nat) (e : RepairError)
    (h1 : checkRowRootInput eds rowRoots bm i = .ok ())
    (h2 : checkColRootInput eds columnRoots bm i = .ok ())
    (h3 : checkRowParity eds bm i = .ok ())
    (h4 : checkColParity eds bm i = .error e) :
    sanityCheckIndex eds rowRoots columnRoots bm i = .error e := by
  unfold sanityCheckIndex
  rw [h1, h2, h3, h4]
  rfl

/-- The row parity guard fires on a fully-present, parity-inconsistent row. -/
theorem checkRowParity_err (eds : ExtendedDataSquare) (bm : bitMatrix) (i : Nat)
    (p : List Cell) (hfull : bm.RowIsOne i = true)
    (henc : Encode (eds.rowSlice i 0 eds.originalDataWidth) eds.codec = .ok p)
    (hmis : flattenChunks p ≠
      flattenChunks (eds.rowSlice i eds.originalDataWidth eds.originalDataWidth)) :
    checkRowParity eds bm i = .error (.byzantineRow i) := by
  simp only [checkRowParity, if_pos hfull, henc, if_pos hmis]

/-- The column parity guard fires on a fully-present, parity-inconsistent
column. -/
theorem checkColParity_err (eds : ExtendedDataSquare) (bm : bitMatrix) (i : Nat)
    (p : List Cell) (hfull : bm.ColumnIsOne i = true)
    (henc : Encode (eds.columnSlice 0 i eds.originalDataWidth) eds.codec = .ok p)
    (hmis : flattenChunks p ≠
      flattenChunks (eds.columnSlice eds.originalDataWidth i eds.originalDataWidth)) :
    checkColParity eds bm i = .error (.byzantineColumn i) := by
  simp only [checkColParity, if_pos hfull, henc, if_pos hmis]

/-- Unconditional failure: a fully-present axis whose parity re-encoding does
not byte-equal its stored parity chunks makes the whole sanity pass fail,
whatever other axes do — the check for its own index cannot return ok, so the
loop over all indices cannot either. -/
theorem sanity_parity_mismatch_not_ok (eds : ExtendedDataSquare)
    (rowRoots columnRoots : List Chunk) (bm : bitMatrix) (mode : Mode) (i : Nat)
    (p : List Cell)
    (hi : i < eds.width)
    (hfull : axisIsOne bm mode i = true)
    (henc : Encode (axisDataSlice eds mode i) eds.codec = .ok p)
    (hmis : flattenChunks p ≠ flattenChunks (axisParitySlice eds mode i)) :
    prerepairSanityCheck eds rowRoots columnRoots bm ≠ .ok () := by
  intro hok
  have hall := runChecks_ok_all _ _ hok i (List.mem_range.mpr hi)
  rcases exceptUnit_cases (checkRowRootInput eds rowRoots bm i) with h1 | ⟨e1, h1⟩
  · rcases exceptUnit_cases (checkColRootInput eds columnRoots bm i) with h2 | ⟨e2, h2⟩
    · cases mode with
      | row =>
          simp only [axisIsOne] at hfull
          simp only [axisDataSlice] at henc
          simp only [axisParitySlice] at hmis
          rw [sanityCheckIndex_err3 _ _ _ _ _ _ h1 h2
            (checkRowParity_err _ _ _ _ hfull henc hmis)] at hall
          exact absurd hall (by simp)
      | column =>
          simp only [axisIsOne] at hfull
          simp only [axisDataSlice] at henc
          simp only [axisParitySlice] at hmis
          rcases exceptUnit_cases (checkRowParity eds bm i) with h3 | ⟨e3, h3⟩
          · rw [sanityCheckIndex_err4 _ _ _ _ _ _ h1 h2 h3
              (checkColParity_err _ _ _ _ hfull henc hmis)] at hall
            exact absurd hall (by simp)
          · rw [sanityCheckIndex_err3 _ _ _ _ _ _ h1 h2 h3] at hall
            exact absurd hall (by simp)
    · rw [sanityCheckIndex_err2 _ _ _ _ _ _ h1 h2] at hall
      exact absurd hall (by simp)
  · rw [sanityCheckIndex_err1 _ _ _ _ _ _ h1] at hall
    exact absurd hall (by simp)

/-- Unconditional failure: an axis with no missing data, a fully-set bit-mask
axis and a root differing from the supplied one makes the whole sanity pass
fail, whatever other axes do. -/
theorem sanity_root_mismatch_not_ok (eds : ExtendedDataSquare)
    (rowRoots columnRoots : List Chunk) (bm : bitMatrix) (mode : Mode) (i : Nat)
    (hi : i < eds.width)
    (hnm : noMissingData (axisVector eds mode i) = true)
    (hfull : axisIsOne bm mode i = true)
    (hroot : axisSuppliedRoot rowRoots columnRoots mode i ≠ axisComputedRoot eds mode i) :
    prerepairSanityCheck eds rowRoots columnRoots bm ≠ .ok () := by
  intro hok
  have hall := runChecks_ok_all _ _ hok i (List.mem_range.mpr hi)
  cases mode with
  | row =>
      simp only [axisVector] at hnm
      simp only [axisIsOne] at hfull
      simp only [axisSuppliedRoot, axisComputedRoot] at hroot
      have h1 : checkRowRootInput eds rowRoots bm i = .error (.badRootInput .row i) := by
        simp only [checkRowRootInput, if_pos (And.intro hnm (And.intro hfull hroot))]
      rw [sanityCheckIndex_err1 _ _ _ _ _ _ h1] at hall
      exact absurd hall (by simp)
  | column =>
      simp only [axisVector] at hnm
      simp only [axisIsOne] at hfull
      simp only [axisSuppliedRoot, axisComputedRoot] at hroot
      have h2 : checkColRootInput eds columnRoots bm i =
          .error (.badRootInput .column i) := by
        simp only [checkColRootInput, if_pos (And.intro hnm (And.intro hfull hroot))]
      rcases exceptUnit_cases (checkRowRootInput eds rowRoots bm i) with h1 | ⟨e1, h1⟩
      · rw [sanityCheckIndex_err2 _ _ _ _ _ _ h1 h2] at hall
        exact absurd hall (by simp)
      · rw [sanityCheckIndex_err1 _ _ _ _ _ _ h1] at hall
        exact absurd hall (by simp)

/-- The repair entry point propagates a sanity-check failure verbatim. -/
theorem repair_fst_sanity_error (rowRoots columnRoots : List Chunk) (data : List Cell)
    (codec : Codec) (tf : TreeFn) (eds : ExtendedDataSquare) (e : RepairError)
    (hcs : scanChunkSize data ≠ 0)
    (himp : ImportExtendedDataSquare (fillData data (scanChunkSize data)) codec tf = .ok eds)
    (hsan : prerepairSanityCheck eds rowRoots columnRoots
      (scanBitMask data (ceilSqrt data.length)) = .error e) :
    (RepairExtendedDataSquare rowRoots columnRoots data codec tf).1 = .error e := by
  simp only [RepairExtendedDataSquare, if_neg hcs]
  simp only [himp, hsan]

/-- C3 (amended): mutating one data chunk of an otherwise fully-present axis
so that the axis's root no longer matches the caller-supplied root makes
`RepairExtendedDataSquare` fail with the plain bad-root-input error naming
the first such axis in scan order — an error that is not `ErrByzantineRow`
or `ErrByzantineColumn` for any index. -/
theorem claim3_amended (rowRoots columnRoots : List Chunk) (data : List Cell)
    (codec : Codec) (tf : TreeFn) (mode : Mode) (i : Nat) (eds : ExtendedDataSquare)
    (hcs : scanChunkSize data ≠ 0)
    (himp : ImportExtendedDataSquare (fillData data (scanChunkSize data)) codec tf = .ok eds)
    (hprior : ∀ k, k < i → sanityCheckIndex eds rowRoots columnRoots
      (scanBitMask data (ceilSqrt data.length)) k = .ok ())
    (hi : i < eds.width)
    (hnm : noMissingData (axisVector eds mode i) = true)
    (hfull : axisIsOne (scanBitMask data (ceilSqrt data.length)) mode i = true)
    (hroot : axisSuppliedRoot rowRoots columnRoots mode i ≠ axisComputedRoot eds mode i)
    (hmode : mode = .column →
      checkRowRootInput eds rowRoots (scanBitMask data (ceilSqrt data.length)) i = .ok ()) :
    (RepairExtendedDataSquare rowRoots columnRoots data codec tf).1 =
      .error (.badRootInput mode i)
    ∧ ∀ j, RepairError.badRootInput mode i ≠ .byzantineRow j
        ∧ RepairError.badRootInput mode i ≠ .byzantineColumn j := by
  refine ⟨?_, fun _ => ⟨nofun, nofun⟩⟩
  exact repair_fst_sanity_error _ _ _ _ _ _ _ hcs himp
    (sanity_first_root_mismatch _ _ _ _ _ _ hi hprior hnm hfull hroot hmode)

/-- Witness for the amended C3 at `c3data` (the mutated all-`[7]` square). -/
theorem claim3_amended_witness :
    (RepairExtendedDataSquare roots7 roots7 c3data repCodec flatTree).1 =
      .error (.badRootInput .row 0)
    ∧ ∀ j, RepairError.badRootInput .row 0 ≠ .byzantineRow j
        ∧ RepairError.badRootInput .row 0 ≠ .byzantineColumn j :=
  claim3_amended roots7 roots7 c3data repCodec flatTree .row 0 (mkSquare2 c3data)
    (by decide) rfl (fun k hk => absurd hk (Nat.not_lt_zero k)) (by decide)
    (by decide) (by decide) (by decide) nofun

/-- C4 (amended): first, for every axis `(mode, i)` the bit matrix marks
fully present whose re-encoded leading `originalDataWidth` chunks do not
byte-equal its stored parity chunks, `prerepairSanityCheck` fails
(unconditionally — the check for index `i` cannot return ok, so the loop
cannot either); second, when this parity comparison is the first failing
guard in scan order (all earlier indices pass, the two root-input guards at
`i` pass, and for a column the row parity at `i` passes), the error is
exactly `ErrByzantineRow i` for a row and `ErrByzantineColumn i` for a
column. -/
theorem claim4_amended :
    (∀ (eds : ExtendedDataSquare) (rowRoots columnRoots : List Chunk)
        (bm : bitMatrix) (mode : Mode) (i : Nat) (p : List Cell),
      i < eds.width →
      axisIsOne bm mode i = true →
      Encode (axisDataSlice eds mode i) eds.codec = .ok p →
      flattenChunks p ≠ flattenChunks (axisParitySlice eds mode i) →
      prerepairSanityCheck eds rowRoots columnRoots bm ≠ .ok ())
    ∧ (∀ (eds : ExtendedDataSquare) (rowRoots columnRoots : List Chunk)
        (bm : bitMatrix) (mode : Mode) (i : Nat) (p : List Cell),
      i < eds.width →
      (∀ k, k < i → sanityCheckIndex eds rowRoots columnRoots bm k = .ok ()) →
      axisIsOne bm mode i = true →
      Encode (axisDataSlice eds mode i) eds.codec = .ok p →
      flattenChunks p ≠ flattenChunks (axisParitySlice eds mode i) →
      checkRowRootInput eds rowRoots bm i = .ok () →
      checkColRootInput eds columnRoots bm i = .ok () →
      (mode = .column → checkRowParity eds bm i = .ok ()) →
      prerepairSanityCheck eds rowRoots columnRoots bm =
        .error (byzantineErr mode i)) :=
  ⟨fun eds rowRoots columnRoots bm mode i p hi hfull henc hmis =>
    sanity_parity_mismatch_not_ok eds rowRoots columnRoots bm mode i p hi hfull
      henc hmis,
   fun eds rowRoots columnRoots bm mode i p hi hprior hfull henc hmis h1 h2 hmode =>
    sanity_first_parity_mismatch eds rowRoots columnRoots bm mode i p hi hprior
      hfull henc hmis h1 h2 hmode⟩

/-- Witness for the amended C4 at the parity-inconsistent square `c4data`:
the unconditional part at row 1 (not the first failing axis) and the
attribution part at row 0. -/
theorem claim4_amended_witness :
    prerepairSanityCheck (mkSquare2 c4data) c4rowRoots c4colRoots fullMask2 ≠ .ok ()
    ∧ prerepairSanityCheck (mkSquare2 c4data) c4rowRoots c4colRoots fullMask2 =
        .error (byzantineErr .row 0) :=
  ⟨claim4_amended.1 (mkSquare2 c4data) c4rowRoots c4colRoots fullMask2 .row 1
     [some [3]] (by decide) (by decide) rfl (by decide),
   claim4_amended.2 (mkSquare2 c4data) c4rowRoots c4colRoots fullMask2 .row 0
     [some [1]] (by decide) (fun k hk => absurd hk (Nat.not_lt_zero k)) (by decide)
     rfl (by decide) rfl rfl nofun⟩

/-- C5 (amended): first, for every axis with no missing chunk whose
bit-matrix axis is fully set and whose freshly computed root differs from
the caller-supplied root, `prerepairSanityCheck` fails (unconditionally —
the check for that axis's index cannot return ok, so the loop cannot
either); second, when this root comparison is the first failing guard in
scan order, the error is the plain bad-root-input error for that axis, which
is neither `ErrByzantineRow` nor `ErrByzantineColumn` for any index. -/
theorem claim5_amended :
    (∀ (eds : ExtendedDataSquare) (rowRoots columnRoots : List Chunk)
        (bm : bitMatrix) (mode : Mode) (i : Nat),
      i < eds.width →
      noMissingData (axisVector eds mode i) = true →
      axisIsOne bm mode i = true →
      axisSuppliedRoot rowRoots columnRoots mode i ≠ axisComputedRoot eds mode i →
      prerepairSanityCheck eds rowRoots columnRoots bm ≠ .ok ())
    ∧ (∀ (eds : ExtendedDataSquare) (rowRoots columnRoots : List Chunk)
        (bm : bitMatrix) (mode : Mode) (i : Nat),
      i < eds.width →
      (∀ k, k < i → sanityCheckIndex eds rowRoots columnRoots bm k = .ok ()) →
      noMissingData (axisVector eds mode i) = true →
      axisIsOne bm mode i = true →
      axisSuppliedRoot rowRoots columnRoots mode i ≠ axisComputedRoot eds mode i →
      (mode = .column → checkRowRootInput eds rowRoots bm i = .ok ()) →
      prerepairSanityCheck eds rowRoots columnRoots bm = .error (.badRootInput mode i)
        ∧ ∀ j, RepairError.badRootInput mode i ≠ .byzantineRow j
            ∧ RepairError.badRootInput mode i ≠ .byzantineColumn j) :=
  ⟨fun eds rowRoots columnRoots bm mode i hi hnm hfull hroot =>
    sanity_root_mismatch_not_ok eds rowRoots columnRoots bm mode i hi hnm hfull hroot,
   fun eds rowRoots columnRoots bm mode i hi hprior hnm hfull hroot hmode =>
    ⟨sanity_first_root_mismatch eds rowRoots columnRoots bm mode i hi hprior hnm
        hfull hroot hmode,
      fun _ => ⟨nofun, nofun⟩⟩⟩

/-- Witness for the amended C5: the unconditional part at row 1 of `c5data`
(not the first failing axis — the pass actually stops at row 0's parity),
and the attribution part on the all-`[7]` square with a garbage root
supplied for row 0. -/
theorem claim5_amended_witness :
    prerepairSanityCheck (mkSquare2 c5data) c5rowRoots c5colRoots fullMask2 ≠ .ok ()
    ∧ (prerepairSanityCheck (mkSquare2 data7) c5wRowRoots roots7 fullMask2 =
          .error (.badRootInput .row 0)
        ∧ ∀ j, RepairError.badRootInput .row 0 ≠ .byzantineRow j
            ∧ RepairError.badRootInput .row 0 ≠ .byzantineColumn j) :=
  ⟨claim5_amended.1 (mkSquare2 c5data) c5rowRoots c5colRoots fullMask2 .row 1
     (by decide) (by decide) (by decide) (by decide),
   claim5_amended.2 (mkSquare2 data7) c5wRowRoots roots7 fullMask2 .row 0
     (by decide) (fun k hk => absurd hk (Nat.not_lt_zero k)) (by decide) (by decide)
     (by decide) nofun⟩

/-- C8: during a solver sweep, a decode failure on an incomplete axis is not
fatal — the step returns with `solved := false` and the square, the bit
matrix and the progress flag unchanged, so the sweep moves on — while an
encode failure during the parity rebuild of a decoded axis aborts the sweep
immediately with that codec error as the solver's result. -/
theorem claim8_decode_nonfatal_encode_fatal :
    (∀ (rowRoots columnRoots : List Chunk) (st : SweepState) (i : Nat) (mode : Mode)
        (e : String),
      axisIncomplete st.bm mode i = true →
      Decode (buildShares st.eds st.bm i mode) st.eds.codec = .error e →
      processAxis rowRoots columnRoots st i mode = .ok { st with solved := false })
    ∧ (∀ (rowRoots columnRoots : List Chunk) (st : SweepState) (i : Nat) (mode : Mode)
        (rs : List Cell) (e : String) (rest : List (Nat × Mode)),
      axisIncomplete st.bm mode i = true →
      Decode (buildShares st.eds st.bm i mode) st.eds.codec = .ok rs →
      extPartIncomplete st.bm mode i st.eds.originalDataWidth st.eds.width = true →
      Encode rs st.eds.codec = .error e →
      sweepAxes rowRoots columnRoots st ((i, mode) :: rest) = .error (.codecError e)) := by
  constructor
  · intro rowRoots columnRoots st i mode e hinc hdec
    simp only [processAxis, if_pos hinc, hdec]
  · intro rowRoots columnRoots st i mode rs e rest hinc hdec hext henc
    have hpa : processAxis rowRoots columnRoots st i mode = .error (.codecError e) := by
      simp only [processAxis, if_pos hinc, hdec, if_pos hext, henc]
    simp only [sweepAxes, hpa]

/-- Witness for C8: a decode failure on the all-missing row 0 leaves the
state unchanged except `solved`; an always-failing encoder aborts the sweep
with its codec error. -/
theorem claim8_witness :
    processAxis [] [] ⟨mkSquare2 data7, ⟨2, [[false, false], [true, true]]⟩, true, false⟩
        0 .row =
      .ok ⟨mkSquare2 data7, ⟨2, [[false, false], [true, true]]⟩, false, false⟩
    ∧ sweepAxes [] []
        ⟨{ width := 2, originalDataWidth := 1, squareRow := chunksToRows 2 data7,
           codec := encFailCodec, createTreeFn := flatTree },
         ⟨2, [[true, false], [true, true]]⟩, true, false⟩ [(0, .row)] =
      .error (.codecError "encode capability fault") :=
  ⟨claim8_decode_nonfatal_encode_fatal.1 [] [] _ 0 .row "insufficient shares" rfl rfl,
   claim8_decode_nonfatal_encode_fatal.2 [] [] _ 0 .row [some [1]]
     "encode capability fault" [] rfl rfl rfl rfl⟩

/-! ### Bit-matrix lemmas for the termination and idempotence arguments -/

theorem bitMatrix.width_Set (bm : bitMatrix) (r c : Nat) :
    (bm.Set r c).width = bm.width := rfl

theorem bitMatrix.WF_Set {bm : bitMatrix} {w : Nat} (h : bm.WF w) (r c : Nat)
    (hr : r < w) : (bm.Set r c).WF w := by
  obtain ⟨hw, hlen, hrows⟩ := h
  refine ⟨hw, by simpa [bitMatrix.Set] using hlen, ?_⟩
  intro x hx
  rcases List.mem_or_eq_of_mem_set hx with hx2 | hx2
  · exact hrows x hx2
  · subst hx2
    rw [List.length_set]
    rw [List.getD_eq_getElem _ _ (by omega)]
    exact hrows _ (List.getElem_mem _)

/-- Reading back an in-range overwritten position. -/
theorem listSetGetD_eq {α : Type} (l : List α) (i : Nat) (a d : α)
    (h : i < l.length) : (l.set i a).getD i d = a := by
  rw [List.getD_eq_getElem?_getD, List.getElem?_set_self h]
  rfl

/-- Reading back a position an overwrite did not touch. -/
theorem listSetGetD_ne {α : Type} (l : List α) (i j : Nat) (a d : α)
    (h : i ≠ j) : (l.set i a).getD j d = l.getD j d := by
  rw [List.getD_eq_getElem?_getD, List.getElem?_set_ne h, ← List.getD_eq_getElem?_getD]

/-- A point set never clears a bit. -/
theorem bitMatrix.Get_mono_Set (bm : bitMatrix) (r c r2 c2 : Nat)
    (h : bm.Get r2 c2 = true) : (bm.Set r c).Get r2 c2 = true := by
  change (bm.bits.getD r2 []).getD c2 false = true at h
  have hr2len : r2 < bm.bits.length := by
    by_contra hcon
    rw [show bm.bits.getD r2 [] = [] from List.getD_eq_default _ _ (by omega)] at h
    simp at h
  have hc2len : c2 < (bm.bits.getD r2 []).length := by
    by_contra hcon
    rw [List.getD_eq_default _ _ (by omega)] at h
    simp at h
  change ((bm.bits.set r ((bm.bits.getD r []).set c true)).getD r2 []).getD c2 false = true
  by_cases hre : r2 = r
  · subst hre
    rw [listSetGetD_eq _ _ _ _ hr2len]
    by_cases hce : c2 = c
    · subst hce
      exact listSetGetD_eq _ _ _ _ hc2len
    · rw [listSetGetD_ne _ _ _ _ _ (fun hq => hce hq.symm)]
      exact h
  · rw [listSetGetD_ne _ _ _ _ _ (fun hq => hre hq.symm)]
    exact h

/-- With a well-formed matrix and in-range indices, a point set turns its bit
on. -/
theorem bitMatrix.Get_Set_self {bm : bitMatrix} {w : Nat} (h : bm.WF w)
    {r c : Nat} (hr : r < w) (hc : c < w) : (bm.Set r c).Get r c = true := by
  obtain ⟨hw, hlen, hrows⟩ := h
  have hr' : r < bm.bits.length := by omega
  have hrowlen : (bm.bits.getD r []).length = w := by
    rw [List.getD_eq_getElem _ _ hr']
    exact hrows _ (List.getElem_mem _)
  change ((bm.bits.set r ((bm.bits.getD r []).set c true)).getD r []).getD c false = true
  rw [listSetGetD_eq _ _ _ _ hr']
  exact listSetGetD_eq _ _ _ _ (by omega)

/-- Whole-row presence in terms of point queries. -/
theorem bitMatrix.RowIsOne_iff {bm : bitMatrix} {w : Nat} (h : bm.WF w)
    {i : Nat} (hi : i < w) :
    bm.RowIsOne i = true ↔ ∀ j, j < w → bm.Get i j = true := by
  obtain ⟨hw, hlen, hrows⟩ := h
  have hi' : i < bm.bits.length := by omega
  have hgl : bm.bits.getD i [] = bm.bits[i] := List.getD_eq_getElem _ _ hi'
  have hrl : (bm.bits[i]).length = w := hrows _ (List.getElem_mem _)
  unfold bitMatrix.RowIsOne bitMatrix.Get
  rw [hgl, List.all_eq_true]
  constructor
  · intro hall j hj
    rw [List.getD_eq_getElem _ _ (by omega)]
    exact hall _ (List.getElem_mem _)
  · intro hj x hx
    obtain ⟨k, hk, hx2⟩ := List.mem_iff_getElem.mp hx
    have h2 := hj k (by omega)
    rw [List.getD_eq_getElem _ _ (by omega)] at h2
    show id x = true
    simp only [id]
    rw [← hx2]
    exact h2

/-- Whole-column presence in terms of point queries. -/
theorem bitMatrix.ColumnIsOne_iff {bm : bitMatrix} {w : Nat} (h : bm.WF w)
    {c : Nat} :
    bm.ColumnIsOne c = true ↔ ∀ r, r < w → bm.Get r c = true := by
  obtain ⟨hw, hlen, hrows⟩ := h
  unfold bitMatrix.ColumnIsOne bitMatrix.Get
  rw [List.all_eq_true]
  constructor
  · intro hall r hr
    have hrlen : r < bm.bits.length := by omega
    rw [show bm.bits.getD r [] = bm.bits[r] from List.getD_eq_getElem _ _ hrlen]
    exact hall _ (List.getElem_mem _)
  · intro hr x hx
    obtain ⟨k, hk, hx2⟩ := List.mem_iff_getElem.mp hx
    have h2 := hr k (by omega)
    have hklen : k < bm.bits.length := by omega
    rw [show bm.bits.getD k [] = bm.bits[k] from List.getD_eq_getElem _ _ hklen] at h2
    show x.getD c false = true
    rw [← hx2]
    exact h2

theorem bitLE_refl (bm : bitMatrix) : bitLE bm bm := fun _ _ h => h

theorem bitLE_trans {a b c : bitMatrix} (h1 : bitLE a b) (h2 : bitLE b c) :
    bitLE a c := fun r q h => h2 r q (h1 r q h)

theorem bitLE_Set (bm : bitMatrix) (r c : Nat) : bitLE bm (bm.Set r c) :=
  fun r2 c2 h => bitMatrix.Get_mono_Set bm r c r2 c2 h

theorem setAxisBits_le (bm : bitMatrix) (w i : Nat) (mode : Mode) :
    bitLE bm (setAxisBits bm w i mode) := by
  unfold setAxisBits
  generalize List.range w = l
  induction l generalizing bm with
  | nil => exact bitLE_refl bm
  | cons j rest ih =>
      simp only [List.foldl_cons]
      cases mode with
      | row => exact bitLE_trans (bitLE_Set bm i j) (ih _)
      | column => exact bitLE_trans (bitLE_Set bm j i) (ih _)

theorem foldlBits_WF {w : Nat} (f : bitMatrix → Nat → bitMatrix)
    (hf : ∀ bm2 x, bm2.WF w → x < w → (f bm2 x).WF w) :
    ∀ (l : List Nat), (∀ x ∈ l, x < w) → ∀ bm2 : bitMatrix, bm2.WF w →
      (l.foldl f bm2).WF w := by
  intro l
  induction l with
  | nil => intro _ bm2 h2; exact h2
  | cons j rest ih =>
      intro hx bm2 h2
      simp only [List.foldl_cons]
      exact ih (fun x hm => hx x (List.mem_cons_of_mem _ hm)) _
        (hf bm2 j h2 (hx j (List.mem_cons_self _ _)))

theorem setAxisBits_WF {bm : bitMatrix} {w : Nat} (h : bm.WF w) {i : Nat}
    (hi : i < w) (mode : Mode) : (setAxisBits bm w i mode).WF w := by
  unfold setAxisBits
  refine foldlBits_WF _ ?_ _ (fun x hm => List.mem_range.mp hm) bm h
  intro bm2 x h2 hx
  cases mode with
  | row => exact bitMatrix.WF_Set h2 i x hi
  | column => exact bitMatrix.WF_Set h2 x i hx

theorem foldlSetRow_get {w : Nat} (i : Nat) :
    ∀ (l : List Nat) (bm : bitMatrix), bm.WF w → i < w → (∀ x ∈ l, x < w) →
      ∀ j, j < w → (j ∈ l ∨ bm.Get i j = true) →
      (l.foldl (fun b k => b.Set i k) bm).Get i j = true := by
  intro l
  induction l with
  | nil =>
      intro bm hwf hi hx j hj hmem
      rcases hmem with hmem | hget
      · simp at hmem
      · exact hget
  | cons k rest ih =>
      intro bm hwf hi hx j hj hmem
      simp only [List.foldl_cons]
      apply ih (bm.Set i k) (bitMatrix.WF_Set hwf i k hi)
        hi (fun x hm => hx x (List.mem_cons_of_mem _ hm)) j hj
      rcases hmem with hmem | hget
      · rcases List.mem_cons.mp hmem with hjk | hjrest
        · subst hjk
          exact Or.inr (bitMatrix.Get_Set_self hwf hi (hx j (List.mem_cons_self _ _)))
        · exact Or.inl hjrest
      · exact Or.inr (bitMatrix.Get_mono_Set _ _ _ _ _ hget)

theorem foldlSetCol_get {w : Nat} (i : Nat) :
    ∀ (l : List Nat) (bm : bitMatrix), bm.WF w → i < w → (∀ x ∈ l, x < w) →
      ∀ j, j < w → (j ∈ l ∨ bm.Get j i = true) →
      (l.foldl (fun b k => b.Set k i) bm).Get j i = true := by
  intro l
  induction l with
  | nil =>
      intro bm hwf hi hx j hj hmem
      rcases hmem with hmem | hget
      · simp at hmem
      · exact hget
  | cons k rest ih =>
      intro bm hwf hi hx j hj hmem
      simp only [List.foldl_cons]
      apply ih (bm.Set k i) (bitMatrix.WF_Set hwf k i (hx k (List.mem_cons_self _ _)))
        hi (fun x hm => hx x (List.mem_cons_of_mem _ hm)) j hj
      rcases hmem with hmem | hget
      · rcases List.mem_cons.mp hmem with hjk | hjrest
        · subst hjk
          exact Or.inr (bitMatrix.Get_Set_self hwf (hx j (List.mem_cons_self _ _)) hi)
        · exact Or.inl hjrest
      · exact Or.inr (bitMatrix.Get_mono_Set _ _ _ _ _ hget)

/-- Setting every bit along an axis completes that axis. -/
theorem setAxisBits_complete {bm : bitMatrix} {w : Nat} (h : bm.WF w) {i : Nat}
    (hi : i < w) (mode : Mode) :
    axisIncomplete (setAxisBits bm w i mode) mode i = false := by
  cases mode with
  | row =>
      have hwf2 := setAxisBits_WF h hi Mode.row
      simp only [axisIncomplete, Bool.not_eq_false']
      rw [bitMatrix.RowIsOne_iff hwf2 hi]
      intro j hj
      exact foldlSetRow_get i (List.range w) bm h hi
        (fun x hm => List.mem_range.mp hm) j hj (Or.inl (List.mem_range.mpr hj))
  | column =>
      have hwf2 := setAxisBits_WF h hi Mode.column
      simp only [axisIncomplete, Bool.not_eq_false']
      rw [bitMatrix.ColumnIsOne_iff hwf2 (w := w)]
      intro j hj
      exact foldlSetCol_get i (List.range w) bm h hi
        (fun x hm => List.mem_range.mp hm) j hj (Or.inl (List.mem_range.mpr hj))

theorem writeShares_width (eds : ExtendedDataSquare) (i : Nat) (mode : Mode)
    (shares : List Cell) : (writeShares eds i mode shares).width = eds.width := by
  unfold writeShares
  generalize (List.range shares.length).zip shares = l
  induction l generalizing eds with
  | nil => rfl
  | cons p rest ih =>
      simp only [List.foldl_cons]
      cases mode with
      | row => exact ih _
      | column => exact ih _

/-- Axis completeness is monotone along `bitLE` between well-formed
matrices. -/
theorem axisIncomplete_mono {a b : bitMatrix} {w : Nat} (ha : a.WF w) (hb : b.WF w)
    (hle : bitLE a b) {mode : Mode} {i : Nat} (hi : i < w)
    (h : axisIncomplete a mode i = false) : axisIncomplete b mode i = false := by
  cases mode with
  | row =>
      simp only [axisIncomplete, Bool.not_eq_false'] at h ⊢
      rw [bitMatrix.RowIsOne_iff hb hi]
      intro j hj
      exact hle i j ((bitMatrix.RowIsOne_iff ha hi).mp h j hj)
  | column =>
      simp only [axisIncomplete, Bool.not_eq_false'] at h ⊢
      rw [bitMatrix.ColumnIsOne_iff hb (w := w)]
      intro r hr
      exact hle r i ((bitMatrix.ColumnIsOne_iff ha (w := w)).mp h r hr)

/-- The three ways one solver step can return normally: the axis was already
complete and nothing happened; decoding failed and only the `solved` flag
dropped; or the axis was rebuilt, its bits were all set and progress was
recorded. -/
theorem processAxis_cases (rowRoots columnRoots : List Chunk) (st : SweepState)
    (i : Nat) (mode : Mode) (st2 : SweepState)
    (h : processAxis rowRoots columnRoots st i mode = .ok st2) :
    (axisIncomplete st.bm mode i = false ∧ st2 = st)
    ∨ (axisIncomplete st.bm mode i = true ∧ st2 = { st with solved := false })
    ∨ (axisIncomplete st.bm mode i = true
        ∧ st2.bm = setAxisBits st.bm st.eds.width i mode
        ∧ st2.solved = st.solved ∧ st2.progressMade = true
        ∧ st2.eds.width = st.eds.width) := by
  by_cases hinc : axisIncomplete st.bm mode i = true
  · unfold processAxis at h
    rw [if_pos hinc] at h
    split at h
    · cases h
      exact Or.inr (Or.inl ⟨hinc, rfl⟩)
    · split at h
      · exact absurd h (by simp)
      · split at h
        · exact absurd h (by simp)
        · split at h
          · exact absurd h (by simp)
          · cases h
            exact Or.inr (Or.inr ⟨hinc, rfl, rfl, rfl, writeShares_width _ _ _ _⟩)
  · unfold processAxis at h
    rw [if_neg hinc] at h
    cases h
    refine Or.inl ⟨?_, rfl⟩
    revert hinc
    cases axisIncomplete st.bm mode i <;> simp

/-- Invariants threaded through one sweep: well-formedness and width are
preserved, bits only turn on, `solved` only drops and `progressMade` only
rises. -/
theorem sweepAxes_invariant (rowRoots columnRoots : List Chunk) (w : Nat) :
    ∀ (L : List (Nat × Mode)) (st st2 : SweepState),
      sweepAxes rowRoots columnRoots st L = .ok st2 →
      st.bm.WF w → st.eds.width = w → (∀ a ∈ L, a.1 < w) →
      st2.bm.WF w ∧ st2.eds.width = w ∧ bitLE st.bm st2.bm
        ∧ (st2.solved = true → st.solved = true)
        ∧ (st.progressMade = true → st2.progressMade = true) := by
  intro L
  induction L with
  | nil =>
      intro st st2 h hwf hww hL
      cases h
      exact ⟨hwf, hww, bitLE_refl _, fun hs => hs, fun hp => hp⟩
  | cons a rest ih =>
      intro st st2 h hwf hww hL
      unfold sweepAxes at h
      cases hpa : processAxis rowRoots columnRoots st a.1 a.2 with
      | error e => rw [hpa] at h; simp at h
      | ok stm =>
          rw [hpa] at h
          have h2 : sweepAxes rowRoots columnRoots stm rest = .ok st2 := h
          have hLrest : ∀ b ∈ rest, b.1 < w := fun b hb => hL b (List.mem_cons_of_mem _ hb)
          rcases processAxis_cases _ _ _ _ _ _ hpa with ⟨hc, rfl⟩ | ⟨hc, rfl⟩ |
            ⟨hc, hbm, hs, hp, hwd⟩
          · exact ih _ st2 h2 hwf hww hLrest
          · obtain ⟨w1, w2, le2, sol2, prog2⟩ := ih _ st2 h2 hwf hww hLrest
            exact ⟨w1, w2, le2, fun hsv => (Bool.false_ne_true (sol2 hsv)).elim,
              fun hpv => prog2 hpv⟩
          · rw [hww] at hbm
            have hstmwf : stm.bm.WF w := by
              rw [hbm]; exact setAxisBits_WF hwf (hL a (List.mem_cons_self _ _)) a.2
            have hstmw : stm.eds.width = w := by rw [hwd]; exact hww
            obtain ⟨w1, w2, le2, sol2, prog2⟩ := ih stm st2 h2 hstmwf hstmw hLrest
            refine ⟨w1, w2, ?_, ?_, fun _ => prog2 hp⟩
            · refine bitLE_trans ?_ le2
              rw [hbm]
              exact setAxisBits_le _ _ _ _
            · intro hsv
              rw [← hs]
              exact sol2 hsv

/-- A sweep that turns the progress flag on completed some axis that was
incomplete when the sweep reached it (hence incomplete at sweep entry). -/
theorem sweepAxes_progress (rowRoots columnRoots : List Chunk) (w : Nat) :
    ∀ (L : List (Nat × Mode)) (st st2 : SweepState),
      sweepAxes rowRoots columnRoots st L = .ok st2 →
      st.bm.WF w → st.eds.width = w → (∀ a ∈ L, a.1 < w) →
      st.progressMade = false → st2.progressMade = true →
      ∃ a, a ∈ L ∧ axisIncomplete st.bm a.2 a.1 = true
        ∧ axisIncomplete st2.bm a.2 a.1 = false := by
  intro L
  induction L with
  | nil =>
      intro st st2 h hwf hww hL hp0 hp1
      cases h
      rw [hp0] at hp1
      exact absurd hp1 (by simp)
  | cons a rest ih =>
      intro st st2 h hwf hww hL hp0 hp1
      unfold sweepAxes at h
      cases hpa : processAxis rowRoots columnRoots st a.1 a.2 with
      | error e => rw [hpa] at h; simp at h
      | ok stm =>
          rw [hpa] at h
          have h2 : sweepAxes rowRoots columnRoots stm rest = .ok st2 := h
          have hLrest : ∀ b ∈ rest, b.1 < w := fun b hb => hL b (List.mem_cons_of_mem _ hb)
          rcases processAxis_cases _ _ _ _ _ _ hpa with ⟨hc, rfl⟩ | ⟨hc, rfl⟩ |
            ⟨hc, hbm, hs, hp, hwd⟩
          · obtain ⟨b, hbmem, hbinc, hbdone⟩ := ih _ st2 h2 hwf hww hLrest hp0 hp1
            exact ⟨b, List.mem_cons_of_mem _ hbmem, hbinc, hbdone⟩
          · obtain ⟨b, hbmem, hbinc, hbdone⟩ := ih _ st2 h2 hwf hww hLrest hp0 hp1
            exact ⟨b, List.mem_cons_of_mem _ hbmem, hbinc, hbdone⟩
          · rw [hww] at hbm
            have ha1 : a.1 < w := hL a (List.mem_cons_self _ _)
            have hstmwf : stm.bm.WF w := by
              rw [hbm]; exact setAxisBits_WF hwf ha1 a.2
            have hstmw : stm.eds.width = w := by rw [hwd]; exact hww
            have hdone : axisIncomplete stm.bm a.2 a.1 = false := by
              rw [hbm]; exact setAxisBits_complete hwf ha1 a.2
            obtain ⟨w1, _, le2, _, _⟩ :=
              sweepAxes_invariant rowRoots columnRoots w rest stm st2 h2 hstmwf
                hstmw hLrest
            exact ⟨a, List.mem_cons_self _ _, hc,
              axisIncomplete_mono hstmwf w1 le2 ha1 hdone⟩

/-- A sweep that drops the solved flag met some axis that was incomplete at
sweep entry (the axis whose decode failed). -/
theorem sweepAxes_solved_drop (rowRoots columnRoots : List Chunk) (w : Nat) :
    ∀ (L : List (Nat × Mode)) (st st2 : SweepState),
      sweepAxes rowRoots columnRoots st L = .ok st2 →
      st.bm.WF w → st.eds.width = w → (∀ a ∈ L, a.1 < w) →
      st.solved = true → st2.solved = false →
      ∃ a, a ∈ L ∧ axisIncomplete st.bm a.2 a.1 = true := by
  intro L
  induction L with
  | nil =>
      intro st st2 h hwf hww hL hs0 hs1
      cases h
      rw [hs0] at hs1
      exact absurd hs1 (by simp)
  | cons a rest ih =>
      intro st st2 h hwf hww hL hs0 hs1
      unfold sweepAxes at h
      cases hpa : processAxis rowRoots columnRoots st a.1 a.2 with
      | error e => rw [hpa] at h; simp at h
      | ok stm =>
          rw [hpa] at h
          have h2 : sweepAxes rowRoots columnRoots stm rest = .ok st2 := h
          have hLrest : ∀ b ∈ rest, b.1 < w := fun b hb => hL b (List.mem_cons_of_mem _ hb)
          rcases processAxis_cases _ _ _ _ _ _ hpa with ⟨hc, rfl⟩ | ⟨hc, rfl⟩ |
            ⟨hc, hbm, hs, hp, hwd⟩
          · obtain ⟨b, hbmem, hbinc⟩ := ih _ st2 h2 hwf hww hLrest hs0 hs1
            exact ⟨b, List.mem_cons_of_mem _ hbmem, hbinc⟩
          · exact ⟨a, List.mem_cons_self _ _, hc⟩
          · rw [hww] at hbm
            have ha1 : a.1 < w := hL a (List.mem_cons_self _ _)
            have hstmwf : stm.bm.WF w := by
              rw [hbm]; exact setAxisBits_WF hwf ha1 a.2
            have hstmw : stm.eds.width = w := by rw [hwd]; exact hww
            obtain ⟨b, hbmem, hbinc⟩ := ih stm st2 h2 hstmwf hstmw hLrest
              (by rw [hs]; exact hs0) hs1
            have hbst : axisIncomplete st.bm b.2 b.1 = true := by
              by_contra hcon
              have hfalse : axisIncomplete st.bm b.2 b.1 = false := by
                revert hcon; cases axisIncomplete st.bm b.2 b.1 <;> simp
              have hmono := axisIncomplete_mono hwf hstmwf
                (by rw [hbm]; exact setAxisBits_le _ _ _ _) (hLrest b hbmem) hfalse
              rw [hmono] at hbinc
              exact absurd hbinc (by simp)
            exact ⟨b, List.mem_cons_of_mem _ hbmem, hbst⟩

/-- A sweep that both drops the solved flag and makes progress met two
distinct axes that were incomplete at sweep entry. -/
theorem sweepAxes_pair (rowRoots columnRoots : List Chunk) (w : Nat) :
    ∀ (L : List (Nat × Mode)) (st st2 : SweepState),
      sweepAxes rowRoots columnRoots st L = .ok st2 →
      st.bm.WF w → st.eds.width = w → (∀ a ∈ L, a.1 < w) → L.Nodup →
      st.solved = true → st.progressMade = false →
      st2.solved = false → st2.progressMade = true →
      ∃ a b, a ∈ L ∧ b ∈ L ∧ a ≠ b ∧ axisIncomplete st.bm a.2 a.1 = true
        ∧ axisIncomplete st.bm b.2 b.1 = true := by
  intro L
  induction L with
  | nil =>
      intro st st2 h hwf hww hL hnd hs0 hp0 hs1 hp1
      cases h
      rw [hs0] at hs1
      exact absurd hs1 (by simp)
  | cons a rest ih =>
      intro st st2 h hwf hww hL hnd hs0 hp0 hs1 hp1
      unfold sweepAxes at h
      cases hpa : processAxis rowRoots columnRoots st a.1 a.2 with
      | error e => rw [hpa] at h; simp at h
      | ok stm =>
          rw [hpa] at h
          have h2 : sweepAxes rowRoots columnRoots stm rest = .ok st2 := h
          have hLrest : ∀ b ∈ rest, b.1 < w := fun b hb => hL b (List.mem_cons_of_mem _ hb)
          have hanotin : a ∉ rest := (List.nodup_cons.mp hnd).1
          have hndrest : rest.Nodup := (List.nodup_cons.mp hnd).2
          rcases processAxis_cases _ _ _ _ _ _ hpa with ⟨hc, rfl⟩ | ⟨hc, rfl⟩ |
            ⟨hc, hbm, hs, hp, hwd⟩
          · obtain ⟨x, y, hx, hy, hxy, hix, hiy⟩ :=
              ih _ st2 h2 hwf hww hLrest hndrest hs0 hp0 hs1 hp1
            exact ⟨x, y, List.mem_cons_of_mem _ hx, List.mem_cons_of_mem _ hy,
              hxy, hix, hiy⟩
          · obtain ⟨b, hbmem, hbinc, _⟩ :=
              sweepAxes_progress rowRoots columnRoots w rest _ st2 h2 hwf hww
                hLrest hp0 hp1
            refine ⟨a, b, List.mem_cons_self _ _, List.mem_cons_of_mem _ hbmem,
              ?_, hc, hbinc⟩
            intro hab
            rw [hab] at hanotin
            exact hanotin hbmem
          · rw [hww] at hbm
            have ha1 : a.1 < w := hL a (List.mem_cons_self _ _)
            have hstmwf : stm.bm.WF w := by
              rw [hbm]; exact setAxisBits_WF hwf ha1 a.2
            have hstmw : stm.eds.width = w := by rw [hwd]; exact hww
            obtain ⟨b, hbmem, hbinc⟩ :=
              sweepAxes_solved_drop rowRoots columnRoots w rest stm st2 h2 hstmwf
                hstmw hLrest (by rw [hs]; exact hs0) hs1
            have hbst : axisIncomplete st.bm b.2 b.1 = true := by
              by_contra hcon
              have hfalse : axisIncomplete st.bm b.2 b.1 = false := by
                revert hcon; cases axisIncomplete st.bm b.2 b.1 <;> simp
              have hmono := axisIncomplete_mono hwf hstmwf
                (by rw [hbm]; exact setAxisBits_le _ _ _ _) (hLrest b hbmem) hfalse
              rw [hmono] at hbinc
              exact absurd hbinc (by simp)
            refine ⟨a, b, List.mem_cons_self _ _, List.mem_cons_of_mem _ hbmem,
              ?_, hc, hbst⟩
            intro hab
            rw [hab] at hanotin
            exact hanotin hbmem

theorem countP_mono_aux {α : Type} (l : List α) (p q : α → Bool)
    (hmono : ∀ x ∈ l, p x = true → q x = true) : l.countP p ≤ l.countP q := by
  induction l with
  | nil => simp
  | cons x xs ih =>
      rw [List.countP_cons, List.countP_cons]
      have h1 := ih (fun y hy => hmono y (List.mem_cons_of_mem _ hy))
      cases hpx : p x with
      | true => rw [hmono x (List.mem_cons_self _ _) hpx]; omega
      | false => cases q x <;> simp <;> omega

theorem countP_lt_of_new {α : Type} (l : List α) (p q : α → Bool)
    (hmono : ∀ x ∈ l, p x = true → q x = true) (a : α) (ha : a ∈ l)
    (hpa : p a = false) (hqa : q a = true) : l.countP p < l.countP q := by
  induction l with
  | nil => simp at ha
  | cons x xs ih =>
      rw [List.countP_cons, List.countP_cons]
      rcases List.mem_cons.mp ha with rfl | haxs
      · have hle := countP_mono_aux xs p q
          (fun y hy => hmono y (List.mem_cons_of_mem _ hy))
        rw [hpa, hqa]
        simp
        omega
      · have hlt := ih (fun y hy => hmono y (List.mem_cons_of_mem _ hy)) haxs
        cases hpx : p x with
        | true => rw [hmono x (List.mem_cons_self _ _) hpx]; omega
        | false => cases q x <;> simp <;> omega

theorem countP_complement {α : Type} (l : List α) (p : α → Bool) :
    l.countP p + l.countP (fun x => !p x) = l.length := by
  induction l with
  | nil => rfl
  | cons x xs ih =>
      rw [List.countP_cons, List.countP_cons, List.length_cons]
      cases p x <;> simp <;> omega

theorem countP_two_false {α : Type} (l : List α) (p : α → Bool) (a b : α)
    (ha : a ∈ l) (hb : b ∈ l) (hab : a ≠ b)
    (hpa : p a = false) (hpb : p b = false) : l.countP p + 2 ≤ l.length := by
  have hq := countP_complement l p
  have h2 : 2 ≤ l.countP (fun x => !p x) := by
    rw [List.countP_eq_length_filter]
    have haf : a ∈ l.filter (fun x => !p x) :=
      List.mem_filter.mpr ⟨ha, by rw [hpa]; rfl⟩
    have hbf : b ∈ l.filter (fun x => !p x) :=
      List.mem_filter.mpr ⟨hb, by rw [hpb]; rfl⟩
    obtain ⟨s, t, hst⟩ := List.append_of_mem haf
    rw [hst] at hbf ⊢
    rw [List.length_append, List.length_cons]
    rcases List.mem_append.mp hbf with hbs | hbt
    · have hs1 : s ≠ [] := List.ne_nil_of_mem hbs
      have : 0 < s.length := List.length_pos.mpr hs1
      omega
    · rcases List.mem_cons.mp hbt with rfl | hbt2
      · exact absurd rfl hab
      · have ht1 : t ≠ [] := List.ne_nil_of_mem hbt2
        have : 0 < t.length := List.length_pos.mpr ht1
        omega
  omega

theorem foldrPairs_mem (l : List Nat) (a : Nat × Mode) :
    a ∈ l.foldr (fun i acc => (i, Mode.row) :: (i, Mode.column) :: acc) [] ↔
      a.1 ∈ l := by
  induction l with
  | nil => simp
  | cons x xs ih =>
      simp only [List.foldr_cons, List.mem_cons, ih]
      constructor
      · rintro (rfl | rfl | h)
        · exact Or.inl rfl
        · exact Or.inl rfl
        · exact Or.inr h
      · rintro (hx | h)
        · rcases a with ⟨a1, m⟩
          simp only at hx
          cases m with
          | row => exact Or.inl (by rw [hx])
          | column => exact Or.inr (Or.inl (by rw [hx]))
        · exact Or.inr (Or.inr h)

theorem foldrPairs_nodup (l : List Nat) (h : l.Nodup) :
    (l.foldr (fun i acc => (i, Mode.row) :: (i, Mode.column) :: acc) []).Nodup := by
  induction l with
  | nil => simp
  | cons x xs ih =>
      have hx : x ∉ xs := (List.nodup_cons.mp h).1
      have hxs := (List.nodup_cons.mp h).2
      simp only [List.foldr_cons]
      refine List.nodup_cons.mpr ⟨?_, List.nodup_cons.mpr ⟨?_, ih hxs⟩⟩
      · intro hmem
        rcases List.mem_cons.mp hmem with heq | hmem2
        · exact absurd heq (by simp)
        · exact hx ((foldrPairs_mem xs _).mp hmem2)
      · intro hmem
        exact hx ((foldrPairs_mem xs _).mp hmem)

theorem axisScanList_mem (w : Nat) (a : Nat × Mode) :
    a ∈ axisScanList w ↔ a.1 < w := by
  unfold axisScanList
  rw [foldrPairs_mem]
  exact List.mem_range

theorem axisScanList_nodup (w : Nat) : (axisScanList w).Nodup :=
  foldrPairs_nodup _ (List.nodup_range w)

theorem axisScanList_length (w : Nat) : (axisScanList w).length = 2 * w := by
  unfold axisScanList
  have key : ∀ l : List Nat,
      (l.foldr (fun i acc => (i, Mode.row) :: (i, Mode.column) :: acc) []).length =
        2 * l.length := by
    intro l
    induction l with
    | nil => rfl
    | cons x xs ih =>
        simp only [List.foldr_cons, List.length_cons, ih]
        omega
  rw [key, List.length_range]

/-- The loop decision theorem: with fuel at least `2 * width` minus the
number of already complete axes (and at least one sweep), the solver loop
reaches a decision.  Every continued sweep strictly increases the number of
complete axes, and a sweep entered with at most one incomplete axis cannot
continue (a continued sweep needs one axis that failed decoding and a
distinct one that was decoded, both incomplete at entry). -/
theorem solveLoop_decides (rowRoots columnRoots : List Chunk) :
    ∀ (fuel : Nat) (eds : ExtendedDataSquare) (bm : bitMatrix),
      bm.WF eds.width → 1 ≤ fuel →
      2 * eds.width ≤ fuel + completeCount eds.width bm →
      ∃ r, solveLoop rowRoots columnRoots fuel eds bm = some r := by
  intro fuel
  induction fuel with
  | zero => intro eds bm hwf h1 h2; omega
  | succ f ih =>
      intro eds bm hwf h1 h2
      cases hsw : sweep rowRoots columnRoots eds bm with
      | error e => exact ⟨.error e, by unfold solveLoop; rw [hsw]⟩
      | ok st =>
          by_cases hsolved : st.solved = true
          · exact ⟨.ok (st.eds, st.bm), by unfold solveLoop; rw [hsw]; simp [hsolved]⟩
          · have hsolvedf : st.solved = false := by
              revert hsolved; cases st.solved <;> simp
            by_cases hprog : st.progressMade = false
            · refine ⟨.error .unrepairableDataSquare, ?_⟩
              unfold solveLoop
              rw [hsw]
              simp [hsolvedf, hprog]
            · have hprogt : st.progressMade = true := by
                revert hprog; cases st.progressMade <;> simp
              set w := eds.width with hwdef
              have hL : ∀ a ∈ axisScanList w, a.1 < w :=
                fun a ha => (axisScanList_mem w a).mp ha
              have hsw2 : sweepAxes rowRoots columnRoots ⟨eds, bm, true, false⟩
                  (axisScanList w) = .ok st := hsw
              obtain ⟨hwf2, hww2, hle2, _, _⟩ :=
                sweepAxes_invariant rowRoots columnRoots w (axisScanList w)
                  ⟨eds, bm, true, false⟩ st hsw2 hwf rfl hL
              obtain ⟨anew, hamem, hainc, hadone⟩ :=
                sweepAxes_progress rowRoots columnRoots w (axisScanList w)
                  ⟨eds, bm, true, false⟩ st hsw2 hwf rfl hL rfl hprogt
              obtain ⟨x, y, hxmem, hymem, hxy, hxinc, hyinc⟩ :=
                sweepAxes_pair rowRoots columnRoots w (axisScanList w)
                  ⟨eds, bm, true, false⟩ st hsw2 hwf rfl hL (axisScanList_nodup w)
                  rfl rfl hsolvedf hprogt
              have hcount1 : completeCount w bm < completeCount w st.bm := by
                unfold completeCount
                refine countP_lt_of_new _ _ _ ?_ anew hamem ?_ ?_
                · intro b hbmem hbp
                  have hbf : axisIncomplete bm b.2 b.1 = false := by
                    revert hbp; cases axisIncomplete bm b.2 b.1 <;> simp
                  have := axisIncomplete_mono hwf hwf2 hle2 (hL b hbmem) hbf
                  rw [this]
                  rfl
                · rw [hainc]; rfl
                · rw [hadone]; rfl
              have hcount2 : completeCount w bm + 2 ≤ 2 * w := by
                rw [← axisScanList_length w]
                unfold completeCount
                refine countP_two_false _ _ x y hxmem hymem hxy ?_ ?_
                · rw [hxinc]; rfl
                · rw [hyinc]; rfl
              obtain ⟨r, hr⟩ := ih st.eds st.bm (by rw [hww2]; exact hwf2)
                (by omega) (by rw [hww2]; omega)
              refine ⟨r, ?_⟩
              unfold solveLoop
              rw [hsw]
              simp [hsolvedf, hprogt]
              exact hr

/-- C7: `solveCrossword` terminates on every input: for any square and
well-formed bit matrix the sweep loop reaches a decision — success when all
axes are complete, `ErrUnrepairableDataSquare` when a sweep makes no
progress, otherwise another sweep — within at most `2 × width` sweeps,
because every continued sweep fully completes at least one previously
incomplete axis; `solveCrossword` is exactly that decision. -/
theorem claim7_solver_terminates (rowRoots columnRoots : List Chunk)
    (eds : ExtendedDataSquare) (bm : bitMatrix)
    (hwf : bm.WF eds.width) (hw : 1 ≤ eds.width) :
    solveLoop rowRoots columnRoots (2 * eds.width) eds bm =
      some (solveCrossword eds bm rowRoots columnRoots) := by
  obtain ⟨r, hr⟩ := solveLoop_decides rowRoots columnRoots (2 * eds.width) eds bm
    hwf (by omega) (by omega)
  rw [hr]
  unfold solveCrossword
  rw [hr]
  rfl

/-- Witness for C7 at a concrete square and bit matrix. -/
theorem claim7_witness :
    solveLoop roots7 roots7 (2 * (mkSquare2 data7).width) (mkSquare2 data7) fullMask2 =
      some (solveCrossword (mkSquare2 data7) fullMask2 roots7 roots7) :=
  claim7_solver_terminates roots7 roots7 (mkSquare2 data7) fullMask2
    (by constructor <;> simp [fullMask2, mkSquare2]) (by decide)

theorem newBitMatrix_WF (w : Nat) : (newBitMatrix w).WF w := by
  refine ⟨rfl, List.length_replicate _ _, ?_⟩
  intro r hr
  rw [List.eq_of_mem_replicate hr]
  exact List.length_replicate _ _

theorem scanBitMask_WF (data : List Cell) (w : Nat) (hlen : data.length ≤ w * w) :
    (scanBitMask data w).WF w := by
  unfold scanBitMask
  have key : ∀ (l : List Nat), (∀ x ∈ l, x < w * w) → ∀ bm2 : bitMatrix, bm2.WF w →
      (l.foldl (fun bm i => if (data.getD i none).isSome then bm.SetFlat i else bm)
        bm2).WF w := by
    intro l
    induction l with
    | nil => intro _ bm2 h2; exact h2
    | cons j rest ih =>
        intro hx bm2 h2
        simp only [List.foldl_cons]
        apply ih (fun x hm => hx x (List.mem_cons_of_mem _ hm))
        by_cases hj : (data.getD j none).isSome = true
        · rw [if_pos hj]
          unfold bitMatrix.SetFlat
          rw [h2.1]
          refine bitMatrix.WF_Set h2 _ _ ?_
          exact Nat.div_lt_of_lt_mul (hx j (List.mem_cons_self _ _))
        · rw [if_neg hj]
          exact h2
  refine key _ (fun x hm => ?_) _ (newBitMatrix_WF w)
  have := List.mem_range.mp hm
  omega

theorem scanFold_le (data : List Cell) :
    ∀ (l : List Nat) (bm2 : bitMatrix),
      bitLE bm2 (l.foldl
        (fun bm i => if (data.getD i none).isSome then bm.SetFlat i else bm) bm2) := by
  intro l
  induction l with
  | nil => intro bm2; exact bitLE_refl _
  | cons j rest ih =>
      intro bm2
      simp only [List.foldl_cons]
      refine bitLE_trans ?_ (ih _)
      by_cases hj : (data.getD j none).isSome = true
      · rw [if_pos hj]
        exact bitLE_Set _ _ _
      · rw [if_neg hj]
        exact bitLE_refl _

/-- With every chunk present in a `w * w` list, the scanned bit matrix is
fully set. -/
theorem scanBitMask_full (data : List Cell) (w : Nat) (hlen : data.length = w * w)
    (hsome : ∀ c ∈ data, c.isSome = true) :
    ∀ r c, r < w → c < w → (scanBitMask data w).Get r c = true := by
  intro r c hr hc
  have hw0 : 0 < w := by omega
  have hi : c + r * w < data.length := by
    rw [hlen]
    have h1 : c + r * w < w + r * w := by omega
    have h2 : w + r * w = (r + 1) * w := by ring
    have h3 : (r + 1) * w ≤ w * w := Nat.mul_le_mul_right w (by omega)
    omega
  have hdiv : (c + r * w) / w = r := by
    rw [Nat.add_mul_div_right c r hw0, Nat.div_eq_of_lt hc]
    omega
  have hmod : (c + r * w) % w = c := by
    rw [Nat.add_mul_mod_self_right c r w, Nat.mod_eq_of_lt hc]
  have hsome2 : (data.getD (c + r * w) none).isSome = true := by
    rw [List.getD_eq_getElem _ _ hi]
    exact hsome _ (List.getElem_mem _)
  unfold scanBitMask
  have key : ∀ (l : List Nat) (bm2 : bitMatrix), bm2.WF w →
      (∀ x ∈ l, x < w * w) → (c + r * w) ∈ l →
      (l.foldl (fun bm i => if (data.getD i none).isSome then bm.SetFlat i else bm)
        bm2).Get r c = true := by
    intro l
    induction l with
    | nil => intro bm2 _ _ hmem; simp at hmem
    | cons j rest ih =>
        intro bm2 h2 hx hmem
        simp only [List.foldl_cons]
        by_cases hji : j = c + r * w
        · subst hji
          rw [if_pos hsome2]
          have hset : bm2.SetFlat (c + r * w) = bm2.Set r c := by
            unfold bitMatrix.SetFlat
            rw [h2.1, hdiv, hmod]
          rw [hset]
          exact scanFold_le data rest _ r c
            (bitMatrix.Get_Set_self h2 hr hc)
        · have hmem2 : (c + r * w) ∈ rest := by
            rcases List.mem_cons.mp hmem with heq | hm
            · exact absurd heq.symm hji
            · exact hm
          have h3 : ∀ bm3 : bitMatrix, bm3.WF w →
              ((if (data.getD j none).isSome then bm2.SetFlat j else bm2)).WF w := by
            intro _ _
            by_cases hj : (data.getD j none).isSome = true
            · rw [if_pos hj]
              unfold bitMatrix.SetFlat
              rw [h2.1]
              refine bitMatrix.WF_Set h2 _ _ ?_
              exact Nat.div_lt_of_lt_mul (hx j (List.mem_cons_self _ _))
            · rw [if_neg hj]
              exact h2
          exact ih _ (h3 bm2 h2) (fun x hm => hx x (List.mem_cons_of_mem _ hm)) hmem2
  refine key _ _ (newBitMatrix_WF w) (fun x hm => ?_) ?_
  · have := List.mem_range.mp hm
    omega
  · exact List.mem_range.mpr hi

theorem fillData_all_some (data : List Cell) (cs : Nat)
    (h : ∀ c ∈ data, c.isSome = true) : fillData data cs = data := by
  induction data with
  | nil => rfl
  | cons c rest ih =>
      cases c with
      | none => exact absurd (h none (List.mem_cons_self _ _)) (by simp)
      | some x =>
          have h2 := ih (fun y hy => h y (List.mem_cons_of_mem _ hy))
          unfold fillData at h2 ⊢
          simp only [List.map_cons]
          rw [h2]

theorem sanityCheckIndex_ok (eds : ExtendedDataSquare) (rowRoots columnRoots : List Chunk)
    (bm : bitMatrix) (i : Nat)
    (h1 : checkRowRootInput eds rowRoots bm i = .ok ())
    (h2 : checkColRootInput eds columnRoots bm i = .ok ())
    (h3 : checkRowParity eds bm i = .ok ())
    (h4 : checkColParity eds bm i = .ok ()) :
    sanityCheckIndex eds rowRoots columnRoots bm i = .ok () := by
  unfold sanityCheckIndex
  rw [h1, h2, h3, h4]
  rfl

theorem checkRowRootInput_ok_of_eq (eds : ExtendedDataSquare) (rowRoots : List Chunk)
    (bm : bitMatrix) (i : Nat) (h : rowRoots.getD i [] = eds.RowRoot i) :
    checkRowRootInput eds rowRoots bm i = .ok () := by
  unfold checkRowRootInput
  rw [if_neg (fun hcon => hcon.2.2 h)]

theorem checkColRootInput_ok_of_eq (eds : ExtendedDataSquare) (columnRoots : List Chunk)
    (bm : bitMatrix) (i : Nat) (h : columnRoots.getD i [] = eds.ColRoot i) :
    checkColRootInput eds columnRoots bm i = .ok () := by
  unfold checkColRootInput
  rw [if_neg (fun hcon => hcon.2.2 h)]

/-- A sweep over axes that are all complete does nothing. -/
theorem sweepAxes_skip (rowRoots columnRoots : List Chunk) :
    ∀ (L : List (Nat × Mode)) (st : SweepState),
      (∀ a ∈ L, axisIncomplete st.bm a.2 a.1 = false) →
      sweepAxes rowRoots columnRoots st L = .ok st := by
  intro L
  induction L with
  | nil => intro st _; rfl
  | cons a rest ih =>
      intro st hall
      unfold sweepAxes
      have hpa : processAxis rowRoots columnRoots st a.1 a.2 = .ok st := by
        unfold processAxis
        rw [if_neg (by rw [hall a (List.mem_cons_self _ _)]; simp)]
      rw [hpa]
      exact ih st (fun b hb => hall b (List.mem_cons_of_mem _ hb))

/-- C9: repairing a fully-known, internally consistent square — every chunk
present, every row and column root matching the supplied roots, parity
consistent with data (the sanity parity checks pass) — returns the imported
square itself with no error, and the caller's data list is untouched: nothing
is re-decoded or overwritten. -/
theorem claim9_idempotent (rowRoots columnRoots : List Chunk) (data : List Cell)
    (codec : Codec) (tf : TreeFn) (eds : ExtendedDataSquare)
    (hsome : ∀ c ∈ data, c.isSome = true)
    (hcs : scanChunkSize data ≠ 0)
    (himp : ImportExtendedDataSquare data codec tf = .ok eds)
    (hroots : ∀ i, i < eds.width →
      rowRoots.getD i [] = eds.RowRoot i ∧ columnRoots.getD i [] = eds.ColRoot i)
    (hpar : ∀ i, i < eds.width →
      checkRowParity eds (scanBitMask data (ceilSqrt data.length)) i = .ok ()
      ∧ checkColParity eds (scanBitMask data (ceilSqrt data.length)) i = .ok ()) :
    RepairExtendedDataSquare rowRoots columnRoots data codec tf = (.ok eds, data) := by
  have himp2 := himp
  simp only [ImportExtendedDataSquare] at himp2
  split at himp2
  case isFalse => simp at himp2
  case isTrue hcond =>
    cases himp2
    have hlen : data.length = ceilSqrt data.length * ceilSqrt data.length :=
      hcond.1.symm
    have hW1 : 1 ≤ ceilSqrt data.length := by
      by_contra hcon
      have hz : ceilSqrt data.length = 0 := by omega
      rw [hz] at hlen
      simp at hlen
      rw [hlen] at hcs
      exact hcs rfl
    have hbmwf : (scanBitMask data (ceilSqrt data.length)).WF (ceilSqrt data.length) :=
      scanBitMask_WF _ _ (le_of_eq hlen)
    have hfull := scanBitMask_full data (ceilSqrt data.length) hlen hsome
    have hcomplete : ∀ a ∈ axisScanList (ceilSqrt data.length),
        axisIncomplete (scanBitMask data (ceilSqrt data.length)) a.2 a.1 = false := by
      intro a ha
      have ha1 : a.1 < ceilSqrt data.length := (axisScanList_mem _ _).mp ha
      rcases a with ⟨a1, m⟩
      cases m with
      | row =>
          simp only [axisIncomplete, Bool.not_eq_false']
          rw [bitMatrix.RowIsOne_iff hbmwf ha1]
          exact fun j hj => hfull a1 j ha1 hj
      | column =>
          simp only [axisIncomplete, Bool.not_eq_false']
          rw [bitMatrix.ColumnIsOne_iff hbmwf]
          exact fun j hj => hfull j a1 hj ha1
    have hsan : prerepairSanityCheck
        { width := ceilSqrt data.length, originalDataWidth := ceilSqrt data.length / 2,
          squareRow := chunksToRows (ceilSqrt data.length) data, codec := codec,
          createTreeFn := tf } rowRoots columnRoots
        (scanBitMask data (ceilSqrt data.length)) = .ok () := by
      refine runChecks_ok_of_all _ _ (fun k hk => ?_)
      have hki : k < ceilSqrt data.length := List.mem_range.mp hk
      exact sanityCheckIndex_ok _ _ _ _ _
        (checkRowRootInput_ok_of_eq _ _ _ _ (hroots k hki).1)
        (checkColRootInput_ok_of_eq _ _ _ _ (hroots k hki).2)
        (hpar k hki).1 (hpar k hki).2
    have hsweep : sweep rowRoots columnRoots
        { width := ceilSqrt data.length, originalDataWidth := ceilSqrt data.length / 2,
          squareRow := chunksToRows (ceilSqrt data.length) data, codec := codec,
          createTreeFn := tf } (scanBitMask data (ceilSqrt data.length)) =
        .ok ⟨{ width := ceilSqrt data.length,
               originalDataWidth := ceilSqrt data.length / 2,
               squareRow := chunksToRows (ceilSqrt data.length) data, codec := codec,
               createTreeFn := tf }, scanBitMask data (ceilSqrt data.length),
             true, false⟩ := by
      unfold sweep
      exact sweepAxes_skip _ _ _ _ hcomplete
    have hsolve : solveCrossword
        { width := ceilSqrt data.length, originalDataWidth := ceilSqrt data.length / 2,
          squareRow := chunksToRows (ceilSqrt data.length) data, codec := codec,
          createTreeFn := tf } (scanBitMask data (ceilSqrt data.length))
        rowRoots columnRoots =
        .ok ({ width := ceilSqrt data.length,
               originalDataWidth := ceilSqrt data.length / 2,
               squareRow := chunksToRows (ceilSqrt data.length) data, codec := codec,
               createTreeFn := tf }, scanBitMask data (ceilSqrt data.length)) := by
      unfold solveCrossword
      obtain ⟨f, hf⟩ : ∃ f, 2 * ceilSqrt data.length = f + 1 :=
        ⟨2 * ceilSqrt data.length - 1, by omega⟩
      show (solveLoop rowRoots columnRoots (2 * ceilSqrt data.length) _ _).getD _ = _
      rw [hf]
      unfold solveLoop
      rw [hsweep]
      rfl
    have hfill : fillData data (scanChunkSize data) = data :=
      fillData_all_some _ _ hsome
    simp only [RepairExtendedDataSquare, if_neg hcs]
    rw [hfill]
    simp only [himp, hsan, hsolve]

/-- Witness for C9 at the consistent all-`[5]` square. -/
theorem claim9_witness :
    RepairExtendedDataSquare c9roots c9roots c9data repCodec flatTree =
      (.ok (mkSquare2 c9data), c9data) :=
  claim9_idempotent c9roots c9roots c9data repCodec flatTree (mkSquare2 c9data)
    (by decide) (by decide) rfl
    (by decide)
    (by decide)

end Rsmt2d
